import Mathlib

/-!
Verification development for `BBimport.py`, a one-shot converter of Moodle
XML quiz exports into Blackboard Ultra bulk-upload text files.

The Python source is shallowly embedded here.  Text is modelled as `List Char`
(named `Str`); the dynamically typed record that `xmltodict` produces is
modelled by the inductive type `Val`; Python exceptions are modelled by
`Except Err`.  Each embedded definition mirrors one Python function or
method of the source file; the regular-expression substitutions used by
`Question._cleanstring` are embedded as explicit fuelled scanners with the
same non-greedy, left-to-right, non-overlapping semantics (all call sites
apply them to newline-free text, so the fact that `.` does not match a
newline is irrelevant there).
-/

/-- Strings are modelled as lists of characters. -/
abbrev Str := List Char

/-- Conversion from Lean string literals to the `Str` model. -/
def str (s : String) : Str := s.data

/-- Python errors relevant to the source program. -/
inductive Err where
  | keyError
  | typeError
  | valueError
  | indexError
  | attrError
  | decodeError
  | unboundLocal
deriving DecidableEq, Repr

/-- Is `p` an initial segment of `s`? -/
def leadsWith : Str → Str → Bool
  | [], _ => true
  | _ :: _, [] => false
  | p :: ps, c :: cs => p = c && leadsWith ps cs

/-- Splits a string at the first occurrence of a character: returns the part
before it and the part after it (Python regex `(.*?)` followed by the char). -/
def splitAtChar (sep : Char) : Str → Option (Str × Str)
  | [] => Option.none
  | c :: cs =>
    if c = sep then some ([], cs)
    else (splitAtChar sep cs).map (fun p => (c :: p.1, p.2))

/-- Splits a string at the first occurrence of a two-character sequence. -/
def splitAtSeq (c₁ c₂ : Char) : Str → Option (Str × Str)
  | [] => Option.none
  | [_] => Option.none
  | a :: b :: rest =>
    if a = c₁ ∧ b = c₂ then some ([], rest)
    else (splitAtSeq c₁ c₂ (b :: rest)).map (fun p => (a :: p.1, p.2))

/-- Embeds `''.join(input.split('\n'))` from `_cleanstring`: removes every
newline character. -/
def stripNL (s : Str) : Str := s.filter (fun c => c ≠ '\x0a')

/-- Fuelled scanner for `re.sub(r"\$(.*?)\$", lambda s: '$$'+s.group(1)+'$$', _)`:
at each position, a `$` followed by a later `$` is replaced (non-greedily, the
content being everything up to the first later `$`) by the content wrapped in
`$$ .. $$`; scanning continues after the match.  The fuel argument only makes
the recursion structural; it is always called with fuel at least the length
of the string, which is enough because every step consumes at least one
character. -/
def subDollarF : Nat → Str → Str
  | 0, s => s
  | _ + 1, [] => []
  | fuel + 1, c :: rest =>
    if c = '$' then
      match splitAtChar '$' rest with
      | some (content, after) =>
          '$' :: '$' :: (content ++ '$' :: '$' :: subDollarF fuel after)
      | Option.none => c :: subDollarF fuel rest
    else c :: subDollarF fuel rest

/-- The dollar-pair substitution at adequate fuel. -/
def subDollar (s : Str) : Str := subDollarF s.length s

/-- Fuelled scanner for the two-character-delimiter substitutions
`re.sub(r"\\\((.*?)\\\)", ...)` and `re.sub(r"\\\[(.*?)\\\]", ...)`:
an opening pair `o₁ o₂` followed by a later closing pair `c₁ c₂` is replaced
(non-greedily) by the content wrapped in `$$ .. $$`. -/
def subDelimF (o₁ o₂ c₁ c₂ : Char) : Nat → Str → Str
  | 0, s => s
  | _ + 1, [] => []
  | fuel + 1, a :: rest =>
    if a = o₁ ∧ rest.headD o₁ = o₂ ∧ rest ≠ [] then
      match splitAtSeq c₁ c₂ (rest.drop 1) with
      | some (content, after) =>
          '$' :: '$' :: (content ++ '$' :: '$' :: subDelimF o₁ o₂ c₁ c₂ fuel after)
      | Option.none => a :: subDelimF o₁ o₂ c₁ c₂ fuel rest
    else a :: subDelimF o₁ o₂ c₁ c₂ fuel rest

/-- The `\( .. \)` substitution of `_cleanstring`. -/
def subParen (s : Str) : Str := subDelimF '\\' '(' '\\' ')' s.length s

/-- The `\[ .. \]` substitution of `_cleanstring`. -/
def subBrk (s : Str) : Str := subDelimF '\\' '[' '\\' ']' s.length s

/-- Fuelled scanner for `re.sub(r"<p .*?>", '<p>', _)`: a literal `<p ` followed
by a later `>` is replaced by the bare tag `<p>`. -/
def subPTagF : Nat → Str → Str
  | 0, s => s
  | _ + 1, [] => []
  | fuel + 1, c :: rest =>
    if c = '<' ∧ leadsWith (str "p ") rest then
      match splitAtChar '>' (rest.drop 2) with
      | some (_, after) => '<' :: 'p' :: '>' :: subPTagF fuel after
      | Option.none => c :: subPTagF fuel rest
    else c :: subPTagF fuel rest

/-- The paragraph-attribute substitution at adequate fuel. -/
def subPTag (s : Str) : Str := subPTagF s.length s

/-- Embeds `re.sub("<p></p>", "", _)`: removes every (non-overlapping,
left-to-right) occurrence of the literal string `<p></p>`. -/
def removeEmptyPF : Nat → Str → Str
  | 0, s => s
  | _ + 1, [] => []
  | fuel + 1, c :: rest =>
    if c = '<' ∧ leadsWith (str "p></p>") rest then removeEmptyPF fuel (rest.drop 6)
    else c :: removeEmptyPF fuel rest

/-- The empty-paragraph removal at adequate fuel. -/
def removeEmptyP (s : Str) : Str := removeEmptyPF s.length s

/-- The `html` branch of `Question._cleanstring`: strip newlines, then the
three LaTeX-delimiter substitutions, then the two paragraph clean-ups, in
source order. -/
def cleanHtml (s : Str) : Str :=
  removeEmptyP (subPTag (subBrk (subParen (subDollar (stripNL s)))))

/-- Splitter for the anchored pattern `^\$(.*?)\$$` of the
`moodle_auto_format` branch: finds the shortest prefix (containing no
newline) that is closed by a `$` sitting at the end of the string or just
before a single final newline. -/
def splitAnchored : Str → Option (Str × Str)
  | [] => Option.none
  | c :: tail =>
    if c = '$' ∧ (tail = [] ∨ tail = ['\x0a']) then some ([], tail)
    else if c = '\x0a' then Option.none
    else (splitAnchored tail).map (fun p => (c :: p.1, p.2))

/-- The `moodle_auto_format` branch of `_cleanstring`:
`re.sub(r"^\$(.*?)\$$", lambda s: '$$'+s.group(1)+'$$', input)`.  Because of
the `^` anchor (and no MULTILINE flag) at most one match exists, starting at
position 0. -/
def cleanAuto (s : Str) : Str :=
  match s with
  | '$' :: rest =>
    match splitAnchored rest with
    | some (content, tail) => '$' :: '$' :: (content ++ '$' :: '$' :: tail)
    | Option.none => s
  | _ => s

/-- Decimal digit value of a character, if it is a digit. -/
def digitVal (c : Char) : Option Nat :=
  if '0' ≤ c ∧ c ≤ '9' then some (c.toNat - 48) else Option.none

/-- Left-to-right accumulation of decimal digits. -/
def parseDigitsAux : Str → Nat → Option Nat
  | [], acc => some acc
  | c :: cs, acc =>
    match digitVal c with
    | some d => parseDigitsAux cs (acc * 10 + d)
    | Option.none => Option.none

/-- Parses a non-empty all-digit string. -/
def parseDigits : Str → Option Nat
  | [] => Option.none
  | s => parseDigitsAux s 0

/-- Embeds Python `int(s)` on the inputs this program feeds it (an optional
minus sign followed by decimal digits; surrounding whitespace and underscore
separators, which Python also tolerates, never occur in Moodle fraction
attributes and are not modelled). A non-conforming string raises
`ValueError`. -/
def pyInt (s : Str) : Except Err Int :=
  match s with
  | '-' :: rest =>
    match parseDigits rest with
    | some n => .ok (-(n : Int))
    | Option.none => .error .valueError
  | _ =>
    match parseDigits s with
    | some n => .ok (n : Int)
    | Option.none => .error .valueError

/-- Unsigned part of Python `float(s)`: digits with an optional fractional
part (the exponent forms Python also accepts never occur in Moodle fraction
attributes and are not modelled). -/
def parseUFloat (s : Str) : Option Rat :=
  match splitAtChar '.' s with
  | Option.none => (parseDigits s).map (fun n => (n : Rat))
  | some (ip, fp) =>
    if ip = [] ∧ fp = [] then Option.none
    else if '.' ∈ fp then Option.none
    else
      match parseDigitsAux ip 0, parseDigitsAux fp 0 with
      | some i, some f =>
        if ip = [] ∧ fp = [] then Option.none
        else some ((i : Rat) + (f : Rat) / ((10 : Rat) ^ fp.length))
      | _, _ => Option.none

/-- Embeds Python `float(s)` on the inputs this program feeds it. -/
def pyFloat (s : Str) : Except Err Rat :=
  match s with
  | '-' :: rest =>
    match parseUFloat rest with
    | some q => .ok (-q)
    | Option.none => .error .valueError
  | _ =>
    match parseUFloat s with
    | some q => .ok q
    | Option.none => .error .valueError

/-- Fuelled worker for Python `s.replace(pat, rep)` (all non-overlapping
occurrences, left to right); only called with non-empty `pat` and fuel at
least `s.length`. -/
def replaceListF (pat rep : Str) : Nat → Str → Str
  | 0, s => s
  | _ + 1, [] => []
  | fuel + 1, c :: rest =>
    if leadsWith pat (c :: rest) then
      rep ++ replaceListF pat rep fuel (List.drop pat.length (c :: rest))
    else c :: replaceListF pat rep fuel rest

/-- Embeds Python `s.replace(pat, rep)` for a non-empty pattern (the program
only ever replaces non-empty literals). -/
def replaceList (pat rep s : Str) : Str :=
  if pat = [] then s else replaceListF pat rep s.length s

/-- Embeds Python `s.split(sep)` for a single-character separator: always a
non-empty list, empty pieces kept. -/
def pySplit (sep : Char) : Str → List Str
  | [] => [[]]
  | c :: rest =>
    if c = sep then [] :: pySplit sep rest
    else
      match pySplit sep rest with
      | h :: t => (c :: h) :: t
      | [] => [[c]]

/-- Embeds Python list indexing `l[i]` (raising `IndexError` out of range). -/
def listGet : List α → Nat → Except Err α
  | [], _ => .error .indexError
  | x :: _, 0 => .ok x
  | _ :: xs, n + 1 => listGet xs n

/-- Value of a base64 alphabet character. -/
def b64val (c : Char) : Option Nat :=
  if 'A' ≤ c ∧ c ≤ 'Z' then some (c.toNat - 65)
  else if 'a' ≤ c ∧ c ≤ 'z' then some (c.toNat - 71)
  else if '0' ≤ c ∧ c ≤ '9' then some (c.toNat + 4)
  else if c = '+' then some 62
  else if c = '/' then some 63
  else Option.none

/-- Embeds `base64.b64decode(s, validate=True)`: strict decoding of 4-character
groups into bytes, with `=`-padding allowed only at the very end; any
non-alphabet character, misplaced padding or wrong length raises
`binascii.Error`. -/
def b64decode : Str → Except Err (List Nat)
  | [] => .ok []
  | a :: b :: c :: d :: rest =>
    (b64val a).elim (.error .decodeError) (fun va =>
      (b64val b).elim (.error .decodeError) (fun vb =>
        if c = '=' ∧ d = '=' ∧ rest = [] then .ok [va * 4 + vb / 16]
        else (b64val c).elim (.error .decodeError) (fun vc =>
          if d = '=' ∧ rest = [] then .ok [va * 4 + vb / 16, vb % 16 * 16 + vc / 4]
          else (b64val d).elim (.error .decodeError) (fun vd =>
            (b64decode rest).map (fun bs =>
              (va * 4 + vb / 16) :: (vb % 16 * 16 + vc / 4) ::
                (vc % 4 * 64 + vd) :: bs)))))
  | _ => .error .decodeError

/-- The base64 alphabet. -/
def b64alpha : Str := str "ABCDEFGHIJKLMNOPQRSTUVWXYZabcdefghijklmnopqrstuvwxyz0123456789+/"

/-- Base64 alphabet character of a 6-bit value. -/
def b64char (v : Nat) : Char := b64alpha.getD v 'A'

/-- Standard base64 encoding of a byte list (used to build well-formed test
payloads; the source program only decodes). -/
def b64encode : List Nat → Str
  | [] => []
  | [x] => [b64char (x / 4), b64char (x % 4 * 16), '=', '=']
  | [x, y] => [b64char (x / 4), b64char (x % 4 * 16 + y / 16), b64char (y % 16 * 4), '=']
  | x :: y :: z :: rest =>
    b64char (x / 4) :: b64char (x % 4 * 16 + y / 16) ::
      b64char (y % 16 * 4 + z / 64) :: b64char (z % 64) :: b64encode rest

/-- The dynamically typed value produced by `xmltodict.parse`: a nested
mapping of string keys to strings, `None`, further mappings, or ordered
sequences of values.  Mappings preserve insertion order (Python `dict`). -/
inductive Val where
  | vnone : Val
  | vs : Str → Val
  | vlist : List Val → Val
  | vdict : List (Str × Val) → Val

/-- A string value from a Lean literal. -/
def vstr (s : String) : Val := .vs (str s)

/-- Ordered lookup in a modelled Python dict. -/
def lookupStr : List (Str × Val) → Str → Option Val
  | [], _ => Option.none
  | (k, v) :: rest, key => if k = key then some v else lookupStr rest key

/-- Embeds Python subscription `v[key]` with a string key: a missing key on a
dict raises `KeyError`; subscripting a non-dict (list, string or `None`) with
a string key raises `TypeError`. -/
def Val.get : Val → Str → Except Err Val
  | .vdict d, k =>
    match lookupStr d k with
    | some v => .ok v
    | Option.none => .error .keyError
  | _, _ => .error .typeError

/-- Embeds Python `v == lit` for a string literal `lit`: true exactly for an
equal string value (comparing a dict, list or `None` with a string is
`False`, not an error). -/
def Val.isStrEq (v : Val) (lit : String) : Bool :=
  match v with
  | .vs s => s = str lit
  | _ => false

/-- Embeds the string coercion used where a value is concatenated into text:
a `TypeError` for anything but a string. -/
def Val.getStr : Val → Except Err Str
  | .vs s => .ok s
  | _ => .error .typeError

/-- Embeds `Question._cleanstring(input, format)`.  The `None` check happens
first and returns the empty string; the `html` and `moodle_auto_format`
branches transform the text; any other format value (including non-string
values, which compare unequal to both format literals) returns the text
unchanged after printing a console notice.  A non-string, non-`None` text
value would make `input.split('\n')` or the regex substitution raise; text
fields are modelled as string-or-`None`, so that case surfaces as
`AttributeError` here. -/
def cleanVal : Val → Val → Except Err Str
  | .vnone, _ => .ok []
  | .vs s, fmt =>
    .ok (if fmt.isStrEq "html" then cleanHtml s
         else if fmt.isStrEq "moodle_auto_format" then cleanAuto s
         else s)
  | _, _ => .error .attrError

/-- Shared fields of every question variant: the normalized text and the
ordered `(filename, bytes)` attachment list. -/
structure QBase where
  question : Str
  files : List (Str × List Nat)
deriving DecidableEq, Repr

/-- Embeds the attachment loop of `Question.__init__` (lines 61-65): for each
file descriptor, a base64-encoded payload is decoded and collected, and an
inline marker naming the file is appended to the question text regardless of
the encoding tag.  A missing `@encoding` key, a non-string name or payload,
or an invalid base64 payload raises, which the orchestrator later converts
into a `Malformed` record.  (Python would let a non-string collected name
through and only fail when writing the attachment; the coercion is checked
here at collection time, a case no claim exercises.) -/
def processFiles : List Val → Str → List (Str × List Nat) →
    Except Err (Str × List (Str × List Nat))
  | [], q, acc => .ok (q, acc)
  | f :: fs, q, acc => do
    let enc ← f.get (str "@encoding")
    let acc' ←
      if enc.isStrEq "base64" then do
        let nm ← f.get (str "@name") >>= Val.getStr
        let payload ← f.get (str "#text") >>= Val.getStr
        let bytes ← b64decode payload
        pure (acc ++ [(nm, bytes)])
      else pure acc
    let nm2 ← f.get (str "@name") >>= Val.getStr
    processFiles fs (q ++ str " [[ linked file " ++ nm2 ++ str " ]]") acc'

/-- Embeds the `isinstance(..., list)` normalization used for file
descriptors and answers: a list is kept, anything else is wrapped as a
one-element list. -/
def listify : Val → List Val
  | .vlist l => l
  | v => [v]

/-- Embeds `Question.__init__`: normalize the question text via
`_cleanstring`, then process the optional `file` entry of `questiontext`. -/
def mkQuestionBase (rec : Val) : Except Err QBase := do
  let qt ← rec.get (str "questiontext")
  let t ← qt.get (str "text")
  let fmt ← qt.get (str "@format")
  let question ← cleanVal t fmt
  match qt with
  | .vdict d =>
    match lookupStr d (str "file") with
    | some fv => do
      let (q', fs) ← processFiles (listify fv) question []
      .ok ⟨q', fs⟩
    | Option.none => .ok ⟨question, []⟩
  | _ => .ok ⟨question, []⟩

/-- `Description.__init__` just runs the base constructor. -/
def mkDescription (rec : Val) : Except Err QBase := mkQuestionBase rec

/-- Embeds Python `str(value)` on a parsed record (used by
`Malformed.__init__`).  The exact punctuation of Python `repr` is immaterial
to the program, which only dumps this string into the malformed-questions
output file. -/
def pyStr : Val → Str
  | .vnone => str "None"
  | .vs s => Char.ofNat 39 :: s ++ [Char.ofNat 39]
  | .vlist l =>
    '[' :: List.intercalate (str ", ") (l.attach.map (fun x => pyStr x.1)) ++ [']']
  | .vdict d =>
    '\x7b' :: List.intercalate (str ", ")
        (d.attach.map (fun x =>
          Char.ofNat 39 :: x.1.1 ++ Char.ofNat 39 :: str ": " ++ pyStr x.1.2)) ++ ['\x7d']
decreasing_by
  · have h := List.sizeOf_lt_of_mem x.2
    simp only [Val.vlist.sizeOf_spec]
    omega
  · obtain ⟨⟨a, b⟩, hx⟩ := x
    have h := List.sizeOf_lt_of_mem hx
    simp only [Val.vdict.sizeOf_spec, Prod.mk.sizeOf_spec] at h ⊢
    omega

/-- Embeds bare iteration `for x in v` as used on `subquestion` and on
MultiChoice's `answer` entry (which the source does NOT normalize with the
`isinstance` check): a list iterates its elements; an empty dict iterates
nothing; iterating a non-empty dict or a string would yield keys/characters
whose subsequent string subscription raises `TypeError`, and iterating
`None` raises `TypeError` directly, so both are modelled as the error the
loop body would raise on its first step. -/
def iterVals : Val → Except Err (List Val)
  | .vlist l => .ok l
  | .vdict [] => .ok []
  | _ => .error .typeError

/-- Matching question ('matching' in Moodle, 'MAT' in Blackboard Ultra). -/
structure Matching extends QBase where
  answers : List (Str × Str)
deriving DecidableEq, Repr

/-- Body of the `Matching.__init__` comprehension over `subquestion`. -/
def matLoop : List Val → Except Err (List (Str × Str))
  | [] => .ok []
  | sub :: rest => do
    let t ← sub.get (str "text")
    let fmt ← sub.get (str "@format")
    let a ← cleanVal t fmt
    let av ← sub.get (str "answer")
    let at2 ← av.get (str "text")
    let b ← cleanVal at2 fmt
    let tl ← matLoop rest
    .ok ((a, b) :: tl)

/-- Embeds `Matching.__init__`. -/
def mkMatching (rec : Val) : Except Err Matching := do
  let base ← mkQuestionBase rec
  let sq ← rec.get (str "subquestion")
  let subs ← iterVals sq
  let ans ← matLoop subs
  .ok ⟨base, ans⟩

/-- Embeds `Matching.to_BBultra`. -/
def Matching.to_BBultra (q : Matching) : Str :=
  str "MAT\t" ++ q.question ++
    (q.answers.map (fun p => '\t' :: p.1 ++ '\t' :: p.2)).flatten

/-- Multiple choice question ('multichoice' in Moodle, 'MC' in Blackboard
Ultra); each option carries a correctness tag. -/
structure MultiChoice extends QBase where
  answers : List (Str × Str)
deriving DecidableEq, Repr

/-- Body of the `MultiChoice.__init__` comprehension: option text plus
`"correct"` exactly when `float(answer["@fraction"]) > 0`. -/
def mcLoop : List Val → Except Err (List (Str × Str))
  | [] => .ok []
  | a :: rest => do
    let t ← a.get (str "text")
    let fmt ← a.get (str "@format")
    let txt ← cleanVal t fmt
    let fr ← a.get (str "@fraction") >>= Val.getStr
    let x ← pyFloat fr
    let tl ← mcLoop rest
    .ok ((txt, if 0 < x then str "correct" else str "incorrect") :: tl)

/-- Embeds `MultiChoice.__init__`. -/
def mkMultiChoice (rec : Val) : Except Err MultiChoice := do
  let base ← mkQuestionBase rec
  let av ← rec.get (str "answer")
  let l ← iterVals av
  let ans ← mcLoop l
  .ok ⟨base, ans⟩

/-- Embeds `MultiChoice.to_BBultra`. -/
def MultiChoice.to_BBultra (q : MultiChoice) : Str :=
  str "MC\t" ++ q.question ++
    (q.answers.map (fun p => '\t' :: p.1 ++ '\t' :: p.2)).flatten

/-- Essay question ('essay' in Moodle, 'ESS' in Blackboard Ultra). -/
structure Essay extends QBase where
  generalfeedback : Str
  graderinfo : Str
deriving DecidableEq, Repr

/-- Embeds `Essay.__init__`. -/
def mkEssay (rec : Val) : Except Err Essay := do
  let base ← mkQuestionBase rec
  let gf ← rec.get (str "generalfeedback")
  let gft ← gf.get (str "text")
  let gff ← gf.get (str "@format")
  let generalfeedback ← cleanVal gft gff
  let gi ← rec.get (str "graderinfo")
  let git ← gi.get (str "text")
  let gif ← gi.get (str "@format")
  let graderinfo ← cleanVal git gif
  .ok ⟨base, generalfeedback, graderinfo⟩

/-- Embeds `Essay.to_BBultra`: feedback and grader info are appended only
when non-empty. -/
def Essay.to_BBultra (q : Essay) : Str :=
  str "ESS\t" ++ q.question ++
    (if 0 < q.generalfeedback.length then '\t' :: q.generalfeedback else []) ++
    (if 0 < q.graderinfo.length then '\t' :: q.graderinfo else [])

/-- Fill-in-the-blanks question ('cloze' in Moodle, 'FIB_PLUS'/'FIB' in
Blackboard Ultra). -/
structure Cloze extends QBase where
  answers : List (Str × Str)
deriving DecidableEq, Repr

/-- The fixed placeholder alphabet `Cloze.variables` (renamed here because
`variables` is reserved in Lean). -/
def clozeVariables : List Str := [str "a", str "b", str "c", str "d", str "e",
  str "f", str "g", str "h", str "i", str "j"]

/-- The bracket-escaping pre-pass shared by `Cloze.__init__` and
`ShortAnswer.__init__`: every `[` becomes `$$\lbrack$$` and every `]`
becomes `$$\rbrack$$`. -/
def escBrackets (s : Str) : Str :=
  replaceList (str "]") (str "$$\\rbrack$$") (replaceList (str "[") (str "$$\\lbrack$$") s)

/-- Fuelled scanner for `re.findall(r"\{(.*?)\}", s)`: the contents of every
non-overlapping, lazily matched brace group, left to right. -/
def findCandidatesF : Nat → Str → List Str
  | 0, _ => []
  | _ + 1, [] => []
  | fuel + 1, c :: rest =>
    if c = '\x7b' then
      match splitAtChar '\x7d' rest with
      | some (content, after) => content :: findCandidatesF fuel after
      | Option.none => findCandidatesF fuel rest
    else findCandidatesF fuel rest

/-- `re.findall(r"\{(.*?)\}", s)` at adequate fuel. -/
def findCandidates (s : Str) : List Str := findCandidatesF s.length s

/-- Embeds the answer extraction
`match.split(":")[2].split('=')[1].split('~')[0].split('#')[0]` of
`Cloze.__init__`: the third colon-part, then the piece between the first and
second `=`, truncated at the first `~` and the first `#`; a missing part
raises `IndexError`. -/
def extractAnswer (m : Str) : Except Err Str := do
  let p2 ← listGet (pySplit ':' m) 2
  let p3 ← listGet (pySplit '=' p2) 1
  let p4 := (pySplit '~' p3).headD []
  .ok ((pySplit '#' p4).headD [])

/-- The loop of `Cloze.__init__` over the brace-group candidates: each match
contributes `(placeholder, answer)` with the next unused symbol of
`variables` (an 11th blank raises `IndexError`), and every occurrence of the
brace group in the question is replaced by `[symbol]`. -/
def clozeLoop : List Str → Str → List (Str × Str) →
    Except Err (Str × List (Str × Str))
  | [], q, acc => .ok (q, acc)
  | m :: ms, q, acc => do
    let ans ← extractAnswer m
    let v ← listGet clozeVariables acc.length
    clozeLoop ms (replaceList ('\x7b' :: m ++ ['\x7d']) ('[' :: v ++ [']']) q)
      (acc ++ [(v, ans)])

/-- Embeds `Cloze.__init__`: base construction, bracket escaping, then the
brace-group scan (computed once, against the escaped text) and the
replacement loop. -/
def mkCloze (rec : Val) : Except Err Cloze := do
  let base ← mkQuestionBase rec
  let q0 := escBrackets base.question
  let (q1, ans) ← clozeLoop (findCandidates q0) q0 []
  .ok ⟨⟨q1, base.files⟩, ans⟩

/-- Embeds `Cloze.to_BBultra`.  With more than one blank a `FIB_PLUS` line is
produced; otherwise the source reads `answer[0][0]` where the local variable
`answer` was never assigned in that branch, raising `UnboundLocalError`
(modelled as the error value `unboundLocal`). -/
def Cloze.to_BBultra (q : Cloze) : Except Err Str :=
  if 1 < q.answers.length then
    .ok (str "FIB_PLUS\t" ++ q.question ++
      (q.answers.map (fun p => '\t' :: p.1 ++ '\t' :: p.2 ++ ['\t'])).flatten)
  else .error .unboundLocal

/-- Short answer question ('shortanswer' in Moodle, 'FIB' in Blackboard
Ultra). -/
structure ShortAnswer extends QBase where
  answers : List Str
deriving DecidableEq, Repr

/-- The answer loop of `ShortAnswer.__init__`: keep exactly the answers whose
`@fraction` converts to the integer 100. -/
def saLoop : List Val → Except Err (List Str)
  | [] => .ok []
  | a :: rest => do
    let fr ← a.get (str "@fraction") >>= Val.getStr
    let n ← pyInt fr
    if n = 100 then do
      let t ← a.get (str "text")
      let fmt ← a.get (str "@format")
      let txt ← cleanVal t fmt
      let tl ← saLoop rest
      .ok (txt :: tl)
    else saLoop rest

/-- Embeds `ShortAnswer.__init__`: base construction, bracket escaping of the
question, then the `isinstance`-normalized answer loop. -/
def mkShortAnswer (rec : Val) : Except Err ShortAnswer := do
  let base ← mkQuestionBase rec
  let q1 := escBrackets base.question
  let av ← rec.get (str "answer")
  let ans ← saLoop (listify av)
  .ok ⟨⟨q1, base.files⟩, ans⟩

/-- Embeds `ShortAnswer.to_BBultra`: a literal ` [a]` placeholder is appended
to the question, then each retained answer. -/
def ShortAnswer.to_BBultra (q : ShortAnswer) : Str :=
  str "FIB\t" ++ q.question ++ str " [a]" ++
    (q.answers.map (fun a => '\t' :: a)).flatten

/-- True/false question ('truefalse' in Moodle, 'TF' in Blackboard Ultra).
The `answer` attribute is only assigned inside the fraction-100 branch of
the loop, so it is `Option`-valued here: `none` models the attribute never
having been set, in which case reading it raises `AttributeError`. -/
structure TrueFalse extends QBase where
  answer : Option Str
deriving DecidableEq, Repr

/-- The answer loop of `TrueFalse.__init__`: each fraction-100 answer
overwrites `answer` (the last one wins); others leave it untouched. -/
def tfLoop : List Val → Option Str → Except Err (Option Str)
  | [], acc => .ok acc
  | a :: rest, acc => do
    let fr ← a.get (str "@fraction") >>= Val.getStr
    let n ← pyInt fr
    if n = 100 then do
      let t ← a.get (str "text")
      let fmt ← a.get (str "@format")
      let txt ← cleanVal t fmt
      tfLoop rest (some txt)
    else tfLoop rest acc

/-- Embeds `TrueFalse.__init__`. -/
def mkTrueFalse (rec : Val) : Except Err TrueFalse := do
  let base ← mkQuestionBase rec
  let av ← rec.get (str "answer")
  let ans ← tfLoop (listify av) Option.none
  .ok ⟨base, ans⟩

/-- Embeds `TrueFalse.to_BBultra`: reading the never-assigned `answer`
attribute raises `AttributeError`. -/
def TrueFalse.to_BBultra (q : TrueFalse) : Except Err Str :=
  match q.answer with
  | some a => .ok (str "TF\t" ++ q.question ++ '\t' :: a)
  | Option.none => .error .attrError

/-- Numerical question ('numerical' in Moodle, 'NUM' in Blackboard Ultra).
Like `TrueFalse.answer`, the two attributes are only assigned inside the
fraction-100 branch. -/
structure Numerical extends QBase where
  answer : Option Str
  tolerance : Option Str
deriving DecidableEq, Repr

/-- The answer loop of `Numerical.__init__`: each fraction-100 answer sets
both the answer text and the tolerance (cleaned with the answer's format). -/
def numLoop : List Val → Option Str × Option Str →
    Except Err (Option Str × Option Str)
  | [], acc => .ok acc
  | a :: rest, acc => do
    let fr ← a.get (str "@fraction") >>= Val.getStr
    let n ← pyInt fr
    if n = 100 then do
      let t ← a.get (str "text")
      let fmt ← a.get (str "@format")
      let ans ← cleanVal t fmt
      let tv ← a.get (str "tolerance")
      let tol ← cleanVal tv fmt
      numLoop rest (some ans, some tol)
    else numLoop rest acc

/-- Embeds `Numerical.__init__`. -/
def mkNumerical (rec : Val) : Except Err Numerical := do
  let base ← mkQuestionBase rec
  let av ← rec.get (str "answer")
  let (ans, tol) ← numLoop (listify av) (Option.none, Option.none)
  .ok ⟨base, ans, tol⟩

/-- Embeds `Numerical.to_BBultra`: reading a never-assigned attribute raises
`AttributeError` (the `answer` attribute is read first). -/
def Numerical.to_BBultra (q : Numerical) : Except Err Str :=
  match q.answer with
  | some a =>
    (match q.tolerance with
     | some t => .ok (str "NUM\t" ++ q.question ++ '\t' :: a ++ '\t' :: t)
     | Option.none => .error .attrError)
  | Option.none => .error .attrError

/-- The closed set of question values the orchestrator buckets: one
constructor per supported Moodle type plus the `Malformed` dump (used for
both unsupported types and construction failures). -/
inductive BBQuestion where
  | cloze : Cloze → BBQuestion
  | description : QBase → BBQuestion
  | essay : Essay → BBQuestion
  | matching : Matching → BBQuestion
  | multichoice : MultiChoice → BBQuestion
  | numerical : Numerical → BBQuestion
  | shortanswer : ShortAnswer → BBQuestion
  | truefalse : TrueFalse → BBQuestion
  | malformed : Str → BBQuestion
deriving DecidableEq, Repr

/-- `question.to_BBultra()` across the variants; `Description` and
`Malformed` inherit the base method, which returns the question text (for
`Malformed`, the raw debug dump). -/
def serializeQ : BBQuestion → Except Err Str
  | .cloze q => q.to_BBultra
  | .description q => .ok q.question
  | .essay q => .ok q.to_BBultra
  | .matching q => .ok q.to_BBultra
  | .multichoice q => .ok q.to_BBultra
  | .numerical q => q.to_BBultra
  | .shortanswer q => .ok q.to_BBultra
  | .truefalse q => q.to_BBultra
  | .malformed s => .ok s

/-- The attachment list of a bucketed question (`Malformed` has none). -/
def BBQuestion.qfiles : BBQuestion → List (Str × List Nat)
  | .cloze q => q.files
  | .description q => q.files
  | .essay q => q.files
  | .matching q => q.files
  | .multichoice q => q.files
  | .numerical q => q.files
  | .shortanswer q => q.files
  | .truefalse q => q.files
  | .malformed _ => []

/-- An insertion-ordered bucket mapping (modelling the Python dict
`questions`): type keys to the questions collected under them. -/
abbrev Buckets := List (Str × List BBQuestion)

/-- Ordered lookup in a bucket mapping. -/
def lookupStr' : Buckets → Str → Option (List BBQuestion)
  | [], _ => Option.none
  | (k, v) :: rest, key => if k = key then some v else lookupStr' rest key

/-- Embeds the append idiom `if not k in questions: questions[k] = [];
questions[k].append(q)`: appends under an existing key, else adds the key at
the end (Python dicts preserve insertion order). -/
def appendBucket (b : Buckets) (k : Str) (q : BBQuestion) : Buckets :=
  if (lookupStr' b k).isSome then
    b.map (fun kv : Str × List BBQuestion =>
      if kv.1 = k then (kv.1, kv.2 ++ [q]) else kv)
  else b ++ [(k, [q])]

/-- A file produced at the output boundary: text files get one export line
per question, attachment files get raw bytes. -/
inductive OutContent where
  | text : Str → OutContent
  | binary : List Nat → OutContent
deriving DecidableEq, Repr

/-- A written output file: name and content. -/
structure OutFile where
  name : Str
  content : OutContent
deriving DecidableEq, Repr

/-- The category-name sanitization `category.replace("/","_")` done by
`write_questions_to_file`. -/
def sanitizeCat (c : Str) : Str := replaceList (str "/") (str "_") c

/-- The top-signifier strip `category.replace("$course$/top/","")` done by
`main`. -/
def stripTop (c : Str) : Str := replaceList (str "$course$/top/") [] c

/-- One question's contribution inside `write_questions_to_file`: its export
line (appended to the text accumulator) and its attachment files, written
while the text is accumulated.  A serialization error (`Cloze` with at most
one blank, `TrueFalse`/`Numerical` with the answer attribute never set)
propagates out of the flush; attachment files Python would already have
written before such an error are not tracked, since every claim that
exercises a failing flush fails before the first write. -/
def flushQuestions (rootname : Str) : List BBQuestion → Str →
    Except Err (List OutFile × Str)
  | [], acc => .ok ([], acc)
  | q :: qs, acc => do
    let line ← serializeQ q
    let (files, text) ← flushQuestions rootname qs (acc ++ line ++ ['\x0a'])
    .ok ((q.qfiles.map (fun f => ⟨rootname ++ '_' :: f.1, .binary f.2⟩) : List OutFile)
          ++ files, text)

/-- Embeds `write_questions_to_file(questions, category, dirname)` with
`dirname = "output/"`: for each type key in insertion order, build the root
file name from the sanitized category and the type key, write each
question's attachments, and write one text file with one export line per
question.  If `category` is still `None` and at least one bucket exists,
building the root name calls `None.replace`, raising `AttributeError` before
anything is written for that bucket. -/
def writeQuestions (buckets : Buckets) (category : Option Str) :
    Except Err (List OutFile) :=
  match buckets with
  | [] => .ok []
  | (qtype, qs) :: rest => do
    let cat ← match category with
      | some c => Except.ok c
      | Option.none => Except.error Err.attrError
    let rootname := str "output/" ++ sanitizeCat cat ++ '_' :: qtype
    let (files, text) ← flushQuestions rootname qs []
    let tl ← writeQuestions rest category
    .ok (files ++ [⟨rootname ++ str ".txt", .text text⟩] ++ tl)

/-- The orchestrator state threaded through `main`'s loop: the per-category
bucket dict and the current category (initially `None`). -/
structure OrchState where
  questions : Buckets
  category : Option Str
deriving DecidableEq, Repr

/-- The initial orchestrator state. -/
def initState : OrchState := ⟨[], Option.none⟩

/-- The body of `main`'s per-record loop, without the surrounding
`try/except`.  On an exception the partially mutated state (and any files a
successful flush already wrote) is returned in the error, mirroring Python's
in-place mutation: a category marker first flushes and resets the buckets
(only if a category is already current), then assigns the new category.  A
question record dispatches on its `@type` tag; an unrecognized tag buckets a
`Malformed` dump under `*unsupported*` (no exception involved).  A category
`text` value of `None` raises on `.replace` after the category variable was
already overwritten with `None`, hence the error case clears the stored
category; a non-string, non-`None` value (which Python would briefly store
before `.replace` raises) is modelled the same way — no claim exercises
that state. -/
def stepBody (st : OrchState) (rec : Val) :
    Except (Err × OrchState × List OutFile) (OrchState × List OutFile) := do
  let ty ← match rec.get (str "@type") with
    | .ok v => Except.ok v
    | .error e => Except.error (e, st, [])
  if ty.isStrEq "category" then
    let (st1, outs) ← match st.category with
      | some _ =>
        (match writeQuestions st.questions st.category with
         | .ok outs => Except.ok ({ st with questions := [] }, outs)
         | .error e => Except.error (e, st, []))
      | Option.none => Except.ok (st, [])
    match rec.get (str "category") with
    | .error e => Except.error (e, st1, outs)
    | .ok cv =>
      match cv.get (str "text") with
      | .error e => Except.error (e, st1, outs)
      | .ok (.vs s) => Except.ok ({ st1 with category := some (stripTop s) }, outs)
      | .ok _ => Except.error (.attrError, { st1 with category := Option.none }, outs)
  else
    let tryAdd (key : Str) (res : Except Err BBQuestion) :
        Except (Err × OrchState × List OutFile) (OrchState × List OutFile) :=
      match res with
      | .ok q => .ok ({ st with questions := appendBucket st.questions key q }, [])
      | .error e => .error (e, st, [])
    if ty.isStrEq "cloze" then tryAdd (str "cloze") ((mkCloze rec).map .cloze)
    else if ty.isStrEq "description" then
      tryAdd (str "description") ((mkDescription rec).map .description)
    else if ty.isStrEq "essay" then tryAdd (str "essay") ((mkEssay rec).map .essay)
    else if ty.isStrEq "matching" then
      tryAdd (str "matching") ((mkMatching rec).map .matching)
    else if ty.isStrEq "multichoice" then
      tryAdd (str "multichoice") ((mkMultiChoice rec).map .multichoice)
    else if ty.isStrEq "numerical" then
      tryAdd (str "numerical") ((mkNumerical rec).map .numerical)
    else if ty.isStrEq "shortanswer" then
      tryAdd (str "shortanswer") ((mkShortAnswer rec).map .shortanswer)
    else if ty.isStrEq "truefalse" then
      tryAdd (str "truefalse") ((mkTrueFalse rec).map .truefalse)
    else
      .ok ({ st with questions :=
        (appendBucket st.questions (str "*unsupported*") (.malformed (pyStr rec))) }, [])

/-- One iteration of `main`'s loop including the `except` handler: any
exception in the body leaves the partial mutations in place and appends a
`Malformed` dump of the record under `*malformed*`. -/
def step (st : OrchState) (rec : Val) : OrchState × List OutFile :=
  match stepBody st rec with
  | .ok r => r
  | .error (_, st', outs) =>
    ({ st' with questions :=
        (appendBucket st'.questions (str "*malformed*") (.malformed (pyStr rec))) }, outs)

/-- Folds `main`'s loop over the record sequence, accumulating the files
written by intermediate category flushes. -/
def runSteps (recs : List Val) : OrchState × List OutFile :=
  recs.foldl (fun acc r =>
    let s := step acc.1 r
    (s.1, acc.2 ++ s.2)) (initState, [])

/-- Embeds `main` from reading the parsed record list to termination: the
per-record loop followed by the final, unguarded
`write_questions_to_file(questions, category, dirname)`; an exception there
(for example serializing a defective question, or `category` still `None`
with a non-empty bucket) crashes the run. -/
def mainRun (recs : List Val) : Except Err (List OutFile) :=
  match runSteps recs with
  | (st, outs) => (writeQuestions st.questions st.category).map (fun o => outs ++ o)

/-- A `questiontext` entry with html format and no attached files. -/
def qtEntry (q : String) : Str × Val :=
  (str "questiontext", .vdict [(str "text", vstr q), (str "@format", vstr "html")])

/-- An answer record with the given fraction string and html-format text. -/
def ansRec (fr a : String) : Val :=
  .vdict [(str "@fraction", vstr fr), (str "text", vstr a), (str "@format", vstr "html")]

/-- An answer record with a `tolerance` entry. -/
def ansRecTol (fr a tol : String) : Val :=
  .vdict [(str "@fraction", vstr fr), (str "text", vstr a),
          (str "@format", vstr "html"), (str "tolerance", vstr tol)]

/-- A full-credit answer record. -/
def ans100 (a : String) : Val := ansRec "100" a

/-- A well-formed truefalse record with a single full-credit answer. -/
def tfRecGood (q a : String) : Val :=
  .vdict [(str "@type", vstr "truefalse"), qtEntry q, (str "answer", .vlist [ans100 a])]

/-- A category marker record. -/
def catRec (c : String) : Val :=
  .vdict [(str "@type", vstr "category"),
          (str "category", .vdict [(str "text", vstr c)])]

/-- A truefalse record built from a list of (fraction, text) answers. -/
def tfRecOf (q : String) (as : List (String × String)) : Val :=
  .vdict [(str "@type", vstr "truefalse"), qtEntry q,
          (str "answer", .vlist (as.map (fun p => ansRec p.1 p.2)))]

/-- A multichoice record built from a list of (fraction, text) answers. -/
def mcRecOf (q : String) (as : List (String × String)) : Val :=
  .vdict [(str "@type", vstr "multichoice"), qtEntry q,
          (str "answer", .vlist (as.map (fun p => ansRec p.1 p.2)))]

/-- A shortanswer record built from a list of (fraction, text) answers. -/
def saRecOf (q : String) (as : List (String × String)) : Val :=
  .vdict [(str "@type", vstr "shortanswer"), qtEntry q,
          (str "answer", .vlist (as.map (fun p => ansRec p.1 p.2)))]

/-- A numerical record built from (fraction, text, tolerance) answers. -/
def numRecOf (q : String) (as : List (String × String × String)) : Val :=
  .vdict [(str "@type", vstr "numerical"), qtEntry q,
          (str "answer", .vlist (as.map (fun p => ansRecTol p.1 p.2.1 p.2.2)))]

/-- A `questiontext` entry carrying file descriptors. -/
def qtFilesEntry (q : String) (files : Val) : Str × Val :=
  (str "questiontext", .vdict [(str "text", vstr q), (str "@format", vstr "html"),
                               (str "file", files)])

/-- A file descriptor with the given name, encoding tag and payload. -/
def fileDesc (nm enc : String) (payload : Str) : Val :=
  .vdict [(str "@name", vstr nm), (str "@encoding", vstr enc), (str "#text", .vs payload)]

/-- A description record whose question text carries the given files value. -/
def descRecFiles (q : String) (files : Val) : Val :=
  .vdict [(str "@type", vstr "description"), qtFilesEntry q files]

/-- A description record with the given text and format tag. -/
def descRecFmt (q fmt : String) : Val :=
  .vdict [(str "@type", vstr "description"),
          (str "questiontext", .vdict [(str "text", vstr q), (str "@format", vstr fmt)])]

/-- A cloze record with html question text. -/
def clozeRecOf (q : String) : Val :=
  .vdict [(str "@type", vstr "cloze"), qtEntry q]

theorem splitAtChar_none_of_notMem {sep : Char} {s : Str} (h : sep ∉ s) :
    splitAtChar sep s = Option.none := by
  induction s with
  | nil => rfl
  | cons c cs ih =>
    simp only [List.mem_cons, not_or] at h
    simp [splitAtChar, Ne.symm h.1, ih h.2]

theorem splitAtChar_append {sep : Char} {x q : Str} (h : sep ∉ x) :
    splitAtChar sep (x ++ sep :: q) = some (x, q) := by
  induction x with
  | nil => simp [splitAtChar]
  | cons c cs ih =>
    simp only [List.mem_cons, not_or] at h
    simp [splitAtChar, Ne.symm h.1, ih h.2]

theorem splitAtChar_length {sep : Char} {s a b : Str}
    (h : splitAtChar sep s = some (a, b)) : b.length < s.length := by
  induction s generalizing a b with
  | nil => simp [splitAtChar] at h
  | cons c cs ih =>
    by_cases hc : c = sep
    · simp only [splitAtChar, if_pos hc, Option.some.injEq, Prod.mk.injEq] at h
      obtain ⟨-, rfl⟩ := h
      simp
    · simp only [splitAtChar, hc, if_false] at h
      cases hs : splitAtChar sep cs with
      | none => rw [hs] at h; simp at h
      | some p =>
        obtain ⟨a', b'⟩ := p
        rw [hs] at h
        simp only [Option.map_some', Option.some.injEq, Prod.mk.injEq] at h
        obtain ⟨-, rfl⟩ := h
        have := ih hs
        simp only [List.length_cons]
        omega

theorem splitAtSeq_append {c₁ c₂ : Char} {x q : Str} (h : c₁ ∉ x) :
    splitAtSeq c₁ c₂ (x ++ c₁ :: c₂ :: q) = some (x, q) := by
  induction x with
  | nil => simp [splitAtSeq]
  | cons a x' ih =>
    simp only [List.mem_cons, not_or] at h
    cases x' with
    | nil => simp [splitAtSeq, Ne.symm h.1]
    | cons b x'' =>
      have hx := ih h.2
      simp only [List.cons_append] at hx ⊢
      rw [splitAtSeq, if_neg (by simp [Ne.symm h.1]), hx]
      rfl

theorem splitAtSeq_length {c₁ c₂ : Char} {s a b : Str}
    (h : splitAtSeq c₁ c₂ s = some (a, b)) : b.length < s.length := by
  induction s generalizing a b with
  | nil => simp [splitAtSeq] at h
  | cons c cs ih =>
    cases cs with
    | nil => simp [splitAtSeq] at h
    | cons d ds =>
      by_cases hc : c = c₁ ∧ d = c₂
      · simp only [splitAtSeq, if_pos hc, Option.some.injEq, Prod.mk.injEq] at h
        obtain ⟨-, rfl⟩ := h
        simp only [List.length_cons]
        omega
      · rw [splitAtSeq, if_neg hc] at h
        cases hs : splitAtSeq c₁ c₂ (d :: ds) with
        | none => rw [hs] at h; simp at h
        | some p =>
          obtain ⟨a', b'⟩ := p
          rw [hs] at h
          simp only [Option.map_some', Option.some.injEq, Prod.mk.injEq] at h
          obtain ⟨-, rfl⟩ := h
          have := ih hs
          simp only [List.length_cons] at this ⊢
          omega

theorem subDollarF_cons_match {rest content after : Str} (n : Nat)
    (hs : splitAtChar '$' rest = some (content, after)) :
    subDollarF (n + 1) ('$' :: rest) =
      '$' :: '$' :: (content ++ '$' :: '$' :: subDollarF n after) := by
  simp [subDollarF, hs]

theorem subDollarF_cons_nomatch {rest : Str} (n : Nat)
    (hs : splitAtChar '$' rest = Option.none) :
    subDollarF (n + 1) ('$' :: rest) = '$' :: subDollarF n rest := by
  simp [subDollarF, hs]

theorem subDollarF_cons_other {c : Char} (n : Nat) (rest : Str) (hc : c ≠ '$') :
    subDollarF (n + 1) (c :: rest) = c :: subDollarF n rest := by
  simp [subDollarF, hc]

theorem subDollarF_congr : ∀ f₁ f₂ : Nat, ∀ s : Str,
    s.length ≤ f₁ → s.length ≤ f₂ → subDollarF f₁ s = subDollarF f₂ s := by
  intro f₁
  induction f₁ with
  | zero =>
    intro f₂ s h₁ _
    have : s = [] := List.length_eq_zero.mp (Nat.le_zero.mp h₁)
    subst this
    cases f₂ <;> rfl
  | succ n ih =>
    intro f₂ s h₁ h₂
    cases s with
    | nil => cases f₂ <;> rfl
    | cons c rest =>
      cases f₂ with
      | zero => simp at h₂
      | succ m =>
        simp only [List.length_cons] at h₁ h₂
        by_cases hc : c = '$'
        · subst hc
          cases hs : splitAtChar '$' rest with
          | none =>
            rw [subDollarF_cons_nomatch n hs, subDollarF_cons_nomatch m hs,
              ih m rest (by omega) (by omega)]
          | some p =>
            obtain ⟨content, after⟩ := p
            have hlen := splitAtChar_length hs
            rw [subDollarF_cons_match n hs, subDollarF_cons_match m hs,
              ih m after (by omega) (by omega)]
        · rw [subDollarF_cons_other n rest hc, subDollarF_cons_other m rest hc,
            ih m rest (by omega) (by omega)]

theorem subDollarF_id : ∀ f : Nat, ∀ s : Str, '$' ∉ s → subDollarF f s = s := by
  intro f
  induction f with
  | zero => intro s _; rfl
  | succ n ih =>
    intro s h
    cases s with
    | nil => rfl
    | cons c rest =>
      simp only [List.mem_cons, not_or] at h
      rw [subDollarF_cons_other n rest (Ne.symm h.1), ih rest h.2]

theorem subDollar_id {s : Str} (h : '$' ∉ s) : subDollar s = s :=
  subDollarF_id _ s h

theorem subDollarF_wf : ∀ p : Str, ∀ f : Nat, ∀ x q : Str,
    (p ++ '$' :: x ++ '$' :: q).length ≤ f → '$' ∉ p → '$' ∉ x →
    subDollarF f (p ++ '$' :: x ++ '$' :: q) =
      p ++ '$' :: '$' :: (x ++ '$' :: '$' :: subDollar q) := by
  intro p
  induction p with
  | nil =>
    intro f x q hf hp hx
    simp only [List.nil_append, List.cons_append] at hf ⊢
    cases f with
    | zero => simp [List.length_append] at hf
    | succ n =>
      rw [subDollarF_cons_match n (splitAtChar_append hx)]
      have hq : q.length ≤ n := by
        simp [List.length_append] at hf
        omega
      rw [subDollarF_congr n q.length q hq (le_refl _)]
      rfl
  | cons c p' ih =>
    intro f x q hf hp hx
    simp only [List.mem_cons, not_or] at hp
    simp only [List.cons_append] at hf ⊢
    cases f with
    | zero => simp [List.length_append] at hf
    | succ n =>
      have hlen : (p' ++ '$' :: x ++ '$' :: q).length ≤ n := by
        simp only [List.cons_append, List.length_cons, List.length_append] at hf ⊢
        omega
      rw [subDollarF_cons_other n _ (Ne.symm hp.1), ih n x q hlen hp.2 hx]

theorem subDollar_wf {p x q : Str} (hp : '$' ∉ p) (hx : '$' ∉ x) :
    subDollar (p ++ '$' :: x ++ '$' :: q) =
      p ++ '$' :: '$' :: (x ++ '$' :: '$' :: subDollar q) :=
  subDollarF_wf p _ x q (le_refl _) hp hx

theorem subDelimF_nil (o₁ o₂ c₁ c₂ : Char) (f : Nat) :
    subDelimF o₁ o₂ c₁ c₂ f [] = [] := by
  cases f <;> rfl

theorem subDelimF_cons_match {o₁ o₂ c₁ c₂ : Char} {rest2 content after : Str} (n : Nat)
    (hs : splitAtSeq c₁ c₂ rest2 = some (content, after)) :
    subDelimF o₁ o₂ c₁ c₂ (n + 1) (o₁ :: o₂ :: rest2) =
      '$' :: '$' :: (content ++ '$' :: '$' :: subDelimF o₁ o₂ c₁ c₂ n after) := by
  simp [subDelimF, hs]

theorem subDelimF_cons_nomatch {o₁ o₂ c₁ c₂ : Char} {rest2 : Str} (n : Nat)
    (hs : splitAtSeq c₁ c₂ rest2 = Option.none) :
    subDelimF o₁ o₂ c₁ c₂ (n + 1) (o₁ :: o₂ :: rest2) =
      o₁ :: subDelimF o₁ o₂ c₁ c₂ n (o₂ :: rest2) := by
  simp [subDelimF, hs]

theorem subDelimF_cons_other {o₁ o₂ c₁ c₂ a : Char} {rest : Str} (n : Nat)
    (h : ¬(a = o₁ ∧ rest.headD o₁ = o₂ ∧ rest ≠ [])) :
    subDelimF o₁ o₂ c₁ c₂ (n + 1) (a :: rest) =
      a :: subDelimF o₁ o₂ c₁ c₂ n rest := by
  simp only [subDelimF]
  rw [if_neg (by simpa using h)]

theorem subDelimF_congr {o₁ o₂ c₁ c₂ : Char} : ∀ f₁ f₂ : Nat, ∀ s : Str,
    s.length ≤ f₁ → s.length ≤ f₂ →
    subDelimF o₁ o₂ c₁ c₂ f₁ s = subDelimF o₁ o₂ c₁ c₂ f₂ s := by
  intro f₁
  induction f₁ with
  | zero =>
    intro f₂ s h₁ _
    have : s = [] := List.length_eq_zero.mp (Nat.le_zero.mp h₁)
    subst this
    cases f₂ <;> rfl
  | succ n ih =>
    intro f₂ s h₁ h₂
    cases s with
    | nil => cases f₂ <;> rfl
    | cons a rest =>
      cases f₂ with
      | zero => simp at h₂
      | succ m =>
        simp only [List.length_cons] at h₁ h₂
        by_cases hcond : a = o₁ ∧ rest.headD o₁ = o₂ ∧ rest ≠ []
        · obtain ⟨rfl, hh, hne⟩ := hcond
          cases rest with
          | nil => simp at hne
          | cons b rest2 =>
            simp only [List.headD_cons] at hh
            subst hh
            simp only [List.length_cons] at h₁ h₂
            cases hs : splitAtSeq c₁ c₂ rest2 with
            | none =>
              rw [subDelimF_cons_nomatch n hs, subDelimF_cons_nomatch m hs,
                ih m _ (by simp; omega) (by simp; omega)]
            | some p =>
              obtain ⟨content, after⟩ := p
              have hlen := splitAtSeq_length hs
              rw [subDelimF_cons_match n hs, subDelimF_cons_match m hs,
                ih m after (by omega) (by omega)]
        · rw [subDelimF_cons_other n hcond, subDelimF_cons_other m hcond,
            ih m rest (by omega) (by omega)]

/-- Scans for an adjacent two-character pair, mirroring how the opener of the
`\(..\)` / `\[..\]` patterns is searched for. -/
def hasPair (c₁ c₂ : Char) : Str → Bool
  | a :: b :: rest => if a = c₁ ∧ b = c₂ then true else hasPair c₁ c₂ (b :: rest)
  | _ => false

theorem hasPair_nil (c₁ c₂ : Char) : hasPair c₁ c₂ [] = false := rfl

theorem hasPair_single (c₁ c₂ a : Char) : hasPair c₁ c₂ [a] = false := rfl

theorem hasPair_cons₂ {c₁ c₂ a b : Char} {rest : Str} (h : ¬(a = c₁ ∧ b = c₂)) :
    hasPair c₁ c₂ (a :: b :: rest) = hasPair c₁ c₂ (b :: rest) := by
  simp [hasPair, h]

theorem hasPair_none {c₁ c₂ : Char} : ∀ s : Str, c₁ ∉ s → hasPair c₁ c₂ s = false := by
  intro s
  induction s with
  | nil => intro _; rfl
  | cons a rest ih =>
    intro h
    simp only [List.mem_cons, not_or] at h
    cases rest with
    | nil => rfl
    | cons b rest2 =>
      rw [hasPair_cons₂ (by simp [Ne.symm h.1])]
      exact ih h.2

theorem hasPair_append_left {c₁ c₂ : Char} : ∀ p s : Str, c₁ ∉ p →
    hasPair c₁ c₂ (p ++ s) = hasPair c₁ c₂ s := by
  intro p
  induction p with
  | nil => intro s _; rfl
  | cons a p' ih =>
    intro s h
    simp only [List.mem_cons, not_or] at h
    cases hps : p' ++ s with
    | nil =>
      obtain ⟨rfl, rfl⟩ := List.append_eq_nil.mp hps
      rfl
    | cons b rest =>
      simp only [List.cons_append, hps]
      rw [hasPair_cons₂ (by simp [Ne.symm h.1]), ← hps, ih s h.2]

theorem subDelimF_id_of_no_pair {o₁ o₂ c₁ c₂ : Char} : ∀ f : Nat, ∀ s : Str,
    hasPair o₁ o₂ s = false → subDelimF o₁ o₂ c₁ c₂ f s = s := by
  intro f
  induction f with
  | zero => intro s _; rfl
  | succ n ih =>
    intro s h
    cases s with
    | nil => rfl
    | cons a rest =>
      cases rest with
      | nil =>
        rw [subDelimF_cons_other n (by simp), subDelimF_nil]
      | cons b rest2 =>
        by_cases hab : a = o₁ ∧ b = o₂
        · rw [hasPair, if_pos hab] at h
          simp at h
        · rw [hasPair_cons₂ hab] at h
          rw [subDelimF_cons_other n (by simpa [List.headD_cons] using hab), ih _ h]

theorem subDelimF_id_notMem {o₁ o₂ c₁ c₂ : Char} {s : Str} (f : Nat) (h : o₁ ∉ s) :
    subDelimF o₁ o₂ c₁ c₂ f s = s :=
  subDelimF_id_of_no_pair f s (hasPair_none s h)

theorem subDelimF_wf {o₁ o₂ c₂ : Char} : ∀ p : Str, ∀ f : Nat, ∀ x q : Str,
    (p ++ o₁ :: o₂ :: (x ++ o₁ :: c₂ :: q)).length ≤ f → o₁ ∉ p → o₁ ∉ x →
    subDelimF o₁ o₂ o₁ c₂ f (p ++ o₁ :: o₂ :: (x ++ o₁ :: c₂ :: q)) =
      p ++ '$' :: '$' :: (x ++ '$' :: '$' :: subDelimF o₁ o₂ o₁ c₂ q.length q) := by
  intro p
  induction p with
  | nil =>
    intro f x q hf hp hx
    simp only [List.nil_append] at hf ⊢
    cases f with
    | zero => simp [List.length_append] at hf
    | succ n =>
      rw [subDelimF_cons_match n (splitAtSeq_append hx)]
      have hq : q.length ≤ n := by
        simp [List.length_append] at hf
        omega
      rw [subDelimF_congr n q.length q hq (le_refl _)]
  | cons c p' ih =>
    intro f x q hf hp hx
    simp only [List.mem_cons, not_or] at hp
    simp only [List.cons_append] at hf ⊢
    cases f with
    | zero => simp [List.length_append] at hf
    | succ n =>
      have hlen : (p' ++ o₁ :: o₂ :: (x ++ o₁ :: c₂ :: q)).length ≤ n := by
        simp only [List.length_cons, List.length_append] at hf ⊢
        omega
      rw [subDelimF_cons_other n ?hcond, ih n x q hlen hp.2 hx]
      case hcond =>
        intro hc
        exact hp.1 hc.1.symm

theorem subPTagF_cons_other {c : Char} {rest : Str} (n : Nat)
    (h : ¬(c = '<' ∧ leadsWith (str "p ") rest = true)) :
    subPTagF (n + 1) (c :: rest) = c :: subPTagF n rest := by
  simp only [subPTagF]
  rw [if_neg (by simpa using h)]

theorem subPTagF_id : ∀ f : Nat, ∀ s : Str, '<' ∉ s → subPTagF f s = s := by
  intro f
  induction f with
  | zero => intro s _; rfl
  | succ n ih =>
    intro s h
    cases s with
    | nil => rfl
    | cons c rest =>
      simp only [List.mem_cons, not_or] at h
      rw [subPTagF_cons_other n (by simp [Ne.symm h.1]), ih rest h.2]

theorem subPTag_id {s : Str} (h : '<' ∉ s) : subPTag s = s := subPTagF_id _ s h

theorem removeEmptyPF_cons_other {c : Char} {rest : Str} (n : Nat)
    (h : ¬(c = '<' ∧ leadsWith (str "p></p>") rest = true)) :
    removeEmptyPF (n + 1) (c :: rest) = c :: removeEmptyPF n rest := by
  simp only [removeEmptyPF]
  rw [if_neg (by simpa using h)]

theorem removeEmptyPF_id : ∀ f : Nat, ∀ s : Str, '<' ∉ s → removeEmptyPF f s = s := by
  intro f
  induction f with
  | zero => intro s _; rfl
  | succ n ih =>
    intro s h
    cases s with
    | nil => rfl
    | cons c rest =>
      simp only [List.mem_cons, not_or] at h
      rw [removeEmptyPF_cons_other n (by simp [Ne.symm h.1]), ih rest h.2]

theorem removeEmptyP_id {s : Str} (h : '<' ∉ s) : removeEmptyP s = s :=
  removeEmptyPF_id _ s h

theorem stripNL_append (a b : Str) : stripNL (a ++ b) = stripNL a ++ stripNL b :=
  List.filter_append _ _

theorem stripNL_cons_keep {c : Char} (h : c ≠ '\x0a') (s : Str) :
    stripNL (c :: s) = c :: stripNL s := by
  simp [stripNL, h]

theorem mem_stripNL {c : Char} {s : Str} : c ∈ stripNL s ↔ c ∈ s ∧ c ≠ '\x0a' := by
  simp [stripNL]

theorem notMem_stripNL {c : Char} {s : Str} (h : c ∉ s) : c ∉ stripNL s := by
  intro hc
  exact h (mem_stripNL.mp hc).1

theorem not_nl_stripNL {s : Str} : '\x0a' ∉ stripNL s := by
  intro hc
  exact (mem_stripNL.mp hc).2 rfl

theorem subParen_id {s : Str} (h : '\\' ∉ s) : subParen s = s :=
  subDelimF_id_notMem _ h

theorem subBrk_id {s : Str} (h : '\\' ∉ s) : subBrk s = s :=
  subDelimF_id_notMem _ h

theorem cleanTail_id {s : Str} (hb : '\\' ∉ s) (hlt : '<' ∉ s) :
    removeEmptyP (subPTag (subBrk (subParen s))) = s := by
  rw [subParen_id hb, subBrk_id hb, subPTag_id hlt, removeEmptyP_id hlt]

theorem notMem_append {c : Char} {a b : Str} (ha : c ∉ a) (hb : c ∉ b) :
    c ∉ a ++ b := by
  simp [List.mem_append, ha, hb]

theorem notMem_cons {c d : Char} {s : Str} (h1 : c ≠ d) (h2 : c ∉ s) :
    c ∉ d :: s := by
  simp [h1, h2]

/-- C9 (amended): for html-format rich text containing a delimited formula `$x$`,
`\(x\)` or `\[x\]` whose surrounding text and content contain no other
delimiter openers (no `$`, no backslash, and no `<` so that the paragraph
clean-ups do not fire), normalization removes every newline character and
yields exactly `$$x$$` in the corresponding position, leaving the
surrounding text otherwise unaltered; the conversion consumes exactly the
non-greedy, left-to-right match. -/
theorem C9_html_delimiter_conversion (p x q : Str)
    (hp : '$' ∉ p ∧ '\\' ∉ p ∧ '<' ∉ p)
    (hx : '$' ∉ x ∧ '\\' ∉ x ∧ '<' ∉ x)
    (hq : '$' ∉ q ∧ '\\' ∉ q ∧ '<' ∉ q) :
    cleanHtml (p ++ '$' :: x ++ '$' :: q) =
        stripNL p ++ '$' :: '$' :: (stripNL x ++ '$' :: '$' :: stripNL q)
  ∧ cleanHtml (p ++ '\\' :: '(' :: x ++ '\\' :: ')' :: q) =
        stripNL p ++ '$' :: '$' :: (stripNL x ++ '$' :: '$' :: stripNL q)
  ∧ cleanHtml (p ++ '\\' :: '[' :: x ++ '\\' :: ']' :: q) =
        stripNL p ++ '$' :: '$' :: (stripNL x ++ '$' :: '$' :: stripNL q) := by
  obtain ⟨hpd, hpb, hpl⟩ := hp
  obtain ⟨hxd, hxb, hxl⟩ := hx
  obtain ⟨hqd, hqb, hql⟩ := hq
  have hPd := notMem_stripNL hpd; have hPb := notMem_stripNL hpb
  have hPl := notMem_stripNL hpl
  have hXd := notMem_stripNL hxd; have hXb := notMem_stripNL hxb
  have hXl := notMem_stripNL hxl
  have hQd := notMem_stripNL hqd; have hQb := notMem_stripNL hqb
  have hQl := notMem_stripNL hql
  have hRb : '\\' ∉ stripNL p ++ '$' :: '$' :: (stripNL x ++ '$' :: '$' :: stripNL q) :=
    notMem_append hPb (notMem_cons (by decide) (notMem_cons (by decide)
      (notMem_append hXb (notMem_cons (by decide) (notMem_cons (by decide) hQb)))))
  have hRl : '<' ∉ stripNL p ++ '$' :: '$' :: (stripNL x ++ '$' :: '$' :: stripNL q) :=
    notMem_append hPl (notMem_cons (by decide) (notMem_cons (by decide)
      (notMem_append hXl (notMem_cons (by decide) (notMem_cons (by decide) hQl)))))
  refine ⟨?dollar, ?paren, ?brack⟩
  case dollar =>
    unfold cleanHtml
    rw [stripNL_append, stripNL_append, stripNL_cons_keep (by decide),
      stripNL_cons_keep (by decide), subDollar_wf hPd hXd, subDollar_id hQd]
    exact cleanTail_id hRb hRl
  case paren =>
    unfold cleanHtml
    rw [stripNL_append, stripNL_append, stripNL_cons_keep (by decide),
      stripNL_cons_keep (by decide), stripNL_cons_keep (by decide),
      stripNL_cons_keep (by decide)]
    have hsd : '$' ∉ stripNL p ++ '\\' :: '(' :: stripNL x ++ '\\' :: ')' :: stripNL q :=
      notMem_append (notMem_append hPd
        (notMem_cons (by decide) (notMem_cons (by decide) hXd)))
        (notMem_cons (by decide) (notMem_cons (by decide) hQd))
    rw [subDollar_id hsd]
    have hshape : stripNL p ++ '\\' :: '(' :: stripNL x ++ '\\' :: ')' :: stripNL q =
        stripNL p ++ '\\' :: '(' :: (stripNL x ++ '\\' :: ')' :: stripNL q) := by
      simp
    rw [hshape]
    show removeEmptyP (subPTag (subBrk
      (subDelimF '\\' '(' '\\' ')' _ (stripNL p ++ '\\' :: '(' ::
        (stripNL x ++ '\\' :: ')' :: stripNL q))))) = _
    rw [subDelimF_wf (stripNL p) _ (stripNL x) (stripNL q) (le_refl _) hPb hXb,
      subDelimF_id_notMem _ hQb]
    rw [subBrk_id hRb, subPTag_id hRl, removeEmptyP_id hRl]
  case brack =>
    unfold cleanHtml
    rw [stripNL_append, stripNL_append, stripNL_cons_keep (by decide),
      stripNL_cons_keep (by decide), stripNL_cons_keep (by decide),
      stripNL_cons_keep (by decide)]
    have hsd : '$' ∉ stripNL p ++ '\\' :: '[' :: stripNL x ++ '\\' :: ']' :: stripNL q :=
      notMem_append (notMem_append hPd
        (notMem_cons (by decide) (notMem_cons (by decide) hXd)))
        (notMem_cons (by decide) (notMem_cons (by decide) hQd))
    rw [subDollar_id hsd]
    have hshape : stripNL p ++ '\\' :: '[' :: stripNL x ++ '\\' :: ']' :: stripNL q =
        stripNL p ++ '\\' :: '[' :: (stripNL x ++ '\\' :: ']' :: stripNL q) := by
      simp
    rw [hshape]
    have hnopair : hasPair '\\' '(' (stripNL p ++ '\\' :: '[' ::
        (stripNL x ++ '\\' :: ']' :: stripNL q)) = false := by
      rw [hasPair_append_left _ _ hPb,
        hasPair_cons₂ (by simp),
        show ('[' : Char) :: (stripNL x ++ '\\' :: ']' :: stripNL q) =
          ('[' :: stripNL x) ++ ('\\' :: ']' :: stripNL q) by simp,
        hasPair_append_left _ _ (notMem_cons (by decide) hXb),
        hasPair_cons₂ (by simp)]
      exact hasPair_none _ (notMem_cons (by decide) hQb)
    show removeEmptyP (subPTag (subBrk (subParen _))) = _
    rw [show subParen (stripNL p ++ '\\' :: '[' ::
        (stripNL x ++ '\\' :: ']' :: stripNL q)) = stripNL p ++ '\\' :: '[' ::
        (stripNL x ++ '\\' :: ']' :: stripNL q) from
      subDelimF_id_of_no_pair _ _ hnopair]
    show removeEmptyP (subPTag (subDelimF '\\' '[' '\\' ']' _ _)) = _
    rw [subDelimF_wf (stripNL p) _ (stripNL x) (stripNL q) (le_refl _) hPb hXb,
      subDelimF_id_notMem _ hQb]
    rw [subPTag_id hRl, removeEmptyP_id hRl]

theorem stripNL_id {s : Str} (h : '\x0a' ∉ s) : stripNL s = s := by
  rw [stripNL, List.filter_eq_self]
  intro c hc
  simp only [decide_eq_true_eq]
  intro heq
  exact h (heq ▸ hc)

theorem subDollar_dollar2 (s : Str) :
    subDollar ('$' :: '$' :: s) = '$' :: '$' :: '$' :: '$' :: subDollar s := by
  have hs : splitAtChar '$' ('$' :: s) = some ([], s) := by simp [splitAtChar]
  show subDollarF (s.length + 2) ('$' :: '$' :: s) = _
  rw [subDollarF_cons_match (s.length + 1) hs,
    subDollarF_congr (s.length + 1) s.length s (by omega) (le_refl _)]
  rfl

/-- C9 counterexample: the text `a$b $x$ c` contains the delimited formula
`$x$` (content `x`, with no nested delimiter openers), yet normalization
does not yield `$$x$$` in that position and does not leave the other `$`
unaltered: under the non-greedy left-to-right scan the stray preceding
dollar pairs with the formula's opening dollar, producing `a$$b $$x$ c`
instead of the claimed `a$b $$x$$ c`. -/
theorem C9_counterexample :
    cleanHtml (str "a$b " ++ '$' :: str "x" ++ '$' :: str " c") = str "a$$b $$x$ c"
  ∧ cleanHtml (str "a$b " ++ '$' :: str "x" ++ '$' :: str " c") ≠
      str "a$b " ++ '$' :: '$' :: (str "x" ++ '$' :: '$' :: str " c") := by
  refine ⟨by decide, ?_⟩
  decide

/-- C9 witness: the three conversions at a concrete formula. -/
theorem C9_html_delimiter_conversion_witness :
    cleanHtml (str "a " ++ '$' :: str "x" ++ '$' :: str " b") =
        stripNL (str "a ") ++ '$' :: '$' ::
          (stripNL (str "x") ++ '$' :: '$' :: stripNL (str " b"))
  ∧ cleanHtml (str "a " ++ '\\' :: '(' :: str "x" ++ '\\' :: ')' :: str " b") =
        stripNL (str "a ") ++ '$' :: '$' ::
          (stripNL (str "x") ++ '$' :: '$' :: stripNL (str " b"))
  ∧ cleanHtml (str "a " ++ '\\' :: '[' :: str "x" ++ '\\' :: ']' :: str " b") =
        stripNL (str "a ") ++ '$' :: '$' ::
          (stripNL (str "x") ++ '$' :: '$' :: stripNL (str " b")) :=
  C9_html_delimiter_conversion (str "a ") (str "x") (str " b")
    (by decide) (by decide) (by decide)

/-- C4 counterexample: normalizing a string that already carries the
converted `$$x$$` delimiters DOES re-match — the single-dollar pattern
matches each `$$` as a pair of dollars around an empty formula, producing
`$$$$x$$$$`; this contradicts the claim that the single-dollar pattern does
not match the double-dollar delimiters. -/
theorem C4_counterexample : cleanHtml (str "$$x$$") = str "$$$$x$$$$" := rfl

/-- C4 amended: the html delimiter conversion DOES re-match already
converted text: for content `x` free of delimiter characters, normalizing
`$$x$$` yields `$$$$x$$$$`, because the non-greedy single-dollar pattern
matches each adjacent `$$` as an empty formula. -/
theorem C4_amended_rematch (x : Str)
    (h : '$' ∉ x ∧ '\\' ∉ x ∧ '<' ∉ x ∧ '\x0a' ∉ x) :
    cleanHtml ('$' :: '$' :: (x ++ '$' :: '$' :: [])) =
      '$' :: '$' :: '$' :: '$' :: (x ++ '$' :: '$' :: '$' :: '$' :: []) := by
  obtain ⟨hd, hb, hl, hn⟩ := h
  unfold cleanHtml
  rw [stripNL_id (notMem_cons (by decide) (notMem_cons (by decide)
    (notMem_append hn (notMem_cons (by decide) (notMem_cons (by decide)
      (by simp))))))]
  rw [subDollar_dollar2]
  rw [show x ++ '$' :: '$' :: ([] : Str) = (x ++ '$' :: ([] : Str)) ++ '$' :: ([] : Str)
    by simp]
  rw [subDollar_wf hd (by simp)]
  have hfin : x ++ '$' :: '$' :: ([] ++ '$' :: '$' :: subDollar []) =
      x ++ '$' :: '$' :: '$' :: '$' :: [] := by
    show x ++ '$' :: '$' :: ([] ++ '$' :: '$' :: subDollarF 0 []) = _
    simp [subDollarF]
  rw [hfin]
  rw [cleanTail_id
    (notMem_cons (by decide) (notMem_cons (by decide) (notMem_cons (by decide)
      (notMem_cons (by decide) (notMem_append hb (by decide))))))
    (notMem_cons (by decide) (notMem_cons (by decide) (notMem_cons (by decide)
      (notMem_cons (by decide) (notMem_append hl (by decide))))))]

/-- C4 amended witness at `x = "x"`. -/
theorem C4_amended_rematch_witness :
    cleanHtml ('$' :: '$' :: (str "x" ++ '$' :: '$' :: [])) =
      '$' :: '$' :: '$' :: '$' :: (str "x" ++ '$' :: '$' :: '$' :: '$' :: []) :=
  C4_amended_rematch (str "x") (by decide)

deriving instance DecidableEq for Except

theorem ebind_ok {α β : Type} (a : α) (k : α → Except Err β) :
    Except.bind (Except.ok a) k = k a := rfl

theorem getLast?_cons_elim {α β : Type} (x : α) (xs : List α) (d : β) (f : α → β) :
    ((x :: xs).getLast?).elim d f = (xs.getLast?).elim (f x) f := by
  cases xs with
  | nil => rfl
  | cons y ys =>
    rw [List.getLast?_cons_cons]
    cases h : (y :: ys).getLast? with
    | none =>
      exact absurd h (by simp [List.getLast?_eq_none_iff])
    | some z => rfl

/-- A multichoice answer list record from (fraction literal, claimed parsed
value, text) triples; the middle component only names the rational the
fraction literal denotes. -/
def mcRecT (q : String) (as : List (String × Rat × String)) : Val :=
  .vdict [(str "@type", vstr "multichoice"), qtEntry q,
          (str "answer", .vlist (as.map (fun p => ansRec p.1 p.2.2)))]

/-- A shortanswer record from (fraction literal, claimed integer value,
text) triples. -/
def saRecT (q : String) (as : List (String × Int × String)) : Val :=
  .vdict [(str "@type", vstr "shortanswer"), qtEntry q,
          (str "answer", .vlist (as.map (fun p => ansRec p.1 p.2.2)))]

/-- A truefalse record from (fraction literal, claimed integer value, text)
triples. -/
def tfRecT (q : String) (as : List (String × Int × String)) : Val :=
  .vdict [(str "@type", vstr "truefalse"), qtEntry q,
          (str "answer", .vlist (as.map (fun p => ansRec p.1 p.2.2)))]

/-- A numerical record from (fraction literal, claimed integer value, text,
tolerance) tuples. -/
def numRecT (q : String) (as : List (String × Int × String × String)) : Val :=
  .vdict [(str "@type", vstr "numerical"), qtEntry q,
          (str "answer", .vlist (as.map (fun p => ansRecTol p.1 p.2.2.1 p.2.2.2)))]

theorem mcLoop_spec : ∀ as : List (String × Rat × String),
    (∀ p ∈ as, pyFloat (str p.1) = .ok p.2.1) →
    mcLoop (as.map (fun p => ansRec p.1 p.2.2)) =
      .ok (as.map (fun p =>
        (cleanHtml (str p.2.2), if 0 < p.2.1 then str "correct" else str "incorrect"))) := by
  intro as
  induction as with
  | nil => intro _; rfl
  | cons p rest ih =>
    intro h
    obtain ⟨fr, v, t⟩ := p
    have hstep : mcLoop (ansRec fr t :: rest.map (fun p => ansRec p.1 p.2.2)) =
        Except.bind (pyFloat (str fr)) (fun x =>
          Except.bind (mcLoop (rest.map (fun p => ansRec p.1 p.2.2))) (fun tl =>
            Except.ok ((cleanHtml (str t),
              if 0 < x then str "correct" else str "incorrect") :: tl))) := rfl
    simp only [List.map_cons]
    rw [hstep, show pyFloat (str fr) = Except.ok v from h ⟨fr, v, t⟩ (by simp),
      ih (fun r hr => h r (by simp [hr]))]
    rfl

theorem saLoop_spec : ∀ as : List (String × Int × String),
    (∀ p ∈ as, pyInt (str p.1) = .ok p.2.1) →
    saLoop (as.map (fun p => ansRec p.1 p.2.2)) =
      .ok ((as.filter (fun p => p.2.1 = 100)).map (fun p => cleanHtml (str p.2.2))) := by
  intro as
  induction as with
  | nil => intro _; rfl
  | cons p rest ih =>
    intro h
    obtain ⟨fr, v, t⟩ := p
    have hstep : saLoop (ansRec fr t :: rest.map (fun p => ansRec p.1 p.2.2)) =
        Except.bind (pyInt (str fr)) (fun n =>
          if n = 100 then
            Except.bind (saLoop (rest.map (fun p => ansRec p.1 p.2.2))) (fun tl =>
              Except.ok (cleanHtml (str t) :: tl))
          else saLoop (rest.map (fun p => ansRec p.1 p.2.2))) := rfl
    simp only [List.map_cons]
    rw [hstep, show pyInt (str fr) = Except.ok v from h ⟨fr, v, t⟩ (by simp), ebind_ok]
    rw [ih (fun r hr => h r (by simp [hr]))]
    by_cases hv : v = 100
    · rw [if_pos hv]
      simp only [List.filter_cons]
      rw [if_pos (by simp [hv]), List.map_cons]
      rfl
    · rw [if_neg hv]
      simp only [List.filter_cons]
      rw [if_neg (by simp [hv])]

theorem tfLoop_spec : ∀ as : List (String × Int × String), ∀ acc : Option Str,
    (∀ p ∈ as, pyInt (str p.1) = .ok p.2.1) →
    tfLoop (as.map (fun p => ansRec p.1 p.2.2)) acc =
      .ok ((((as.filter (fun p => p.2.1 = 100)).map
        (fun p => cleanHtml (str p.2.2))).getLast?).elim acc some) := by
  intro as
  induction as with
  | nil => intro acc _; rfl
  | cons p rest ih =>
    intro acc h
    obtain ⟨fr, v, t⟩ := p
    have hstep : tfLoop (ansRec fr t :: rest.map (fun p => ansRec p.1 p.2.2)) acc =
        Except.bind (pyInt (str fr)) (fun n =>
          if n = 100 then
            tfLoop (rest.map (fun p => ansRec p.1 p.2.2)) (some (cleanHtml (str t)))
          else tfLoop (rest.map (fun p => ansRec p.1 p.2.2)) acc) := rfl
    simp only [List.map_cons]
    rw [hstep, show pyInt (str fr) = Except.ok v from h ⟨fr, v, t⟩ (by simp), ebind_ok]
    by_cases hv : v = 100
    · rw [if_pos hv, ih (some (cleanHtml (str t))) (fun r hr => h r (by simp [hr]))]
      simp only [List.filter_cons]
      rw [if_pos (by simp [hv]), List.map_cons, getLast?_cons_elim]
    · rw [if_neg hv, ih acc (fun r hr => h r (by simp [hr]))]
      simp only [List.filter_cons]
      rw [if_neg (by simp [hv])]

theorem numLoop_spec : ∀ as : List (String × Int × String × String),
    ∀ acc : Option Str × Option Str,
    (∀ p ∈ as, pyInt (str p.1) = .ok p.2.1) →
    numLoop (as.map (fun p => ansRecTol p.1 p.2.2.1 p.2.2.2)) acc =
      .ok ((((as.filter (fun p => p.2.1 = 100)).map
        (fun p => (cleanHtml (str p.2.2.1), cleanHtml (str p.2.2.2)))).getLast?).elim acc
          (fun pr => (some pr.1, some pr.2))) := by
  intro as
  induction as with
  | nil => intro acc _; rfl
  | cons p rest ih =>
    intro acc h
    obtain ⟨fr, v, t, tol⟩ := p
    have hstep : numLoop (ansRecTol fr t tol ::
          rest.map (fun p => ansRecTol p.1 p.2.2.1 p.2.2.2)) acc =
        Except.bind (pyInt (str fr)) (fun n =>
          if n = 100 then
            numLoop (rest.map (fun p => ansRecTol p.1 p.2.2.1 p.2.2.2))
              (some (cleanHtml (str t)), some (cleanHtml (str tol)))
          else numLoop (rest.map (fun p => ansRecTol p.1 p.2.2.1 p.2.2.2)) acc) := rfl
    simp only [List.map_cons]
    rw [hstep, show pyInt (str fr) = Except.ok v from h ⟨fr, v, t, tol⟩ (by simp), ebind_ok]
    by_cases hv : v = 100
    · rw [if_pos hv, ih (some (cleanHtml (str t)), some (cleanHtml (str tol)))
        (fun r hr => h r (by simp [hr]))]
      simp only [List.filter_cons]
      rw [if_pos (by simp [hv]), List.map_cons, getLast?_cons_elim]
    · rw [if_neg hv, ih acc (fun r hr => h r (by simp [hr]))]
      simp only [List.filter_cons]
      rw [if_neg (by simp [hv])]

theorem mkMultiChoice_spec (q : String) (as : List (String × Rat × String))
    (h : ∀ p ∈ as, pyFloat (str p.1) = .ok p.2.1) :
    mkMultiChoice (mcRecT q as) =
      .ok ⟨⟨cleanHtml (str q), []⟩, as.map (fun p =>
        (cleanHtml (str p.2.2), if 0 < p.2.1 then str "correct" else str "incorrect"))⟩ := by
  have hstep : mkMultiChoice (mcRecT q as) =
      Except.bind (mcLoop (as.map (fun p => ansRec p.1 p.2.2))) (fun ans =>
        Except.ok ⟨⟨cleanHtml (str q), []⟩, ans⟩) := rfl
  rw [hstep, mcLoop_spec as h]
  rfl

theorem mkShortAnswer_spec (q : String) (as : List (String × Int × String))
    (h : ∀ p ∈ as, pyInt (str p.1) = .ok p.2.1) :
    mkShortAnswer (saRecT q as) =
      .ok ⟨⟨escBrackets (cleanHtml (str q)), []⟩,
        (as.filter (fun p => p.2.1 = 100)).map (fun p => cleanHtml (str p.2.2))⟩ := by
  have hstep : mkShortAnswer (saRecT q as) =
      Except.bind (saLoop (as.map (fun p => ansRec p.1 p.2.2))) (fun ans =>
        Except.ok ⟨⟨escBrackets (cleanHtml (str q)), []⟩, ans⟩) := rfl
  rw [hstep, saLoop_spec as h]
  rfl

theorem mkTrueFalse_spec (q : String) (as : List (String × Int × String))
    (h : ∀ p ∈ as, pyInt (str p.1) = .ok p.2.1) :
    mkTrueFalse (tfRecT q as) =
      .ok ⟨⟨cleanHtml (str q), []⟩,
        (((as.filter (fun p => p.2.1 = 100)).map
          (fun p => cleanHtml (str p.2.2))).getLast?).elim Option.none some⟩ := by
  have hstep : mkTrueFalse (tfRecT q as) =
      Except.bind (tfLoop (as.map (fun p => ansRec p.1 p.2.2)) Option.none) (fun ans =>
        Except.ok ⟨⟨cleanHtml (str q), []⟩, ans⟩) := rfl
  rw [hstep, tfLoop_spec as Option.none h]
  rfl

theorem mkNumerical_spec (q : String) (as : List (String × Int × String × String))
    (h : ∀ p ∈ as, pyInt (str p.1) = .ok p.2.1) :
    mkNumerical (numRecT q as) =
      .ok ⟨⟨cleanHtml (str q), []⟩,
        ((((as.filter (fun p => p.2.1 = 100)).map
          (fun p => (cleanHtml (str p.2.2.1), cleanHtml (str p.2.2.2)))).getLast?).elim
            (Option.none, Option.none) (fun pr => (some pr.1, some pr.2))).1,
        ((((as.filter (fun p => p.2.1 = 100)).map
          (fun p => (cleanHtml (str p.2.2.1), cleanHtml (str p.2.2.2)))).getLast?).elim
            (Option.none, Option.none) (fun pr => (some pr.1, some pr.2))).2⟩ := by
  have hstep : mkNumerical (numRecT q as) =
      Except.bind (numLoop (as.map (fun p => ansRecTol p.1 p.2.2.1 p.2.2.2))
          (Option.none, Option.none)) (fun ans =>
        Except.ok ⟨⟨cleanHtml (str q), []⟩, ans.1, ans.2⟩) := rfl
  rw [hstep, numLoop_spec as (Option.none, Option.none) h]
  rfl

/-- C3: a MultiChoice option is tagged "correct" exactly when its fraction is
strictly positive (all others "incorrect"), while ShortAnswer retains exactly
the fraction-100 answers, TrueFalse keeps the (last) fraction-100 answer and
Numerical the (last) fraction-100 answer/tolerance pair; in particular an
answer with fraction 99 or 0 is never retained by those three types. -/
theorem C3_fraction_thresholds (q : String)
    (mcAs : List (String × Rat × String)) (saAs tfAs : List (String × Int × String))
    (numAs : List (String × Int × String × String))
    (hmc : ∀ p ∈ mcAs, pyFloat (str p.1) = .ok p.2.1)
    (hsa : ∀ p ∈ saAs, pyInt (str p.1) = .ok p.2.1)
    (htf : ∀ p ∈ tfAs, pyInt (str p.1) = .ok p.2.1)
    (hnum : ∀ p ∈ numAs, pyInt (str p.1) = .ok p.2.1) :
    mkMultiChoice (mcRecT q mcAs) =
      .ok ⟨⟨cleanHtml (str q), []⟩, mcAs.map (fun p =>
        (cleanHtml (str p.2.2), if 0 < p.2.1 then str "correct" else str "incorrect"))⟩
  ∧ mkShortAnswer (saRecT q saAs) =
      .ok ⟨⟨escBrackets (cleanHtml (str q)), []⟩,
        (saAs.filter (fun p => p.2.1 = 100)).map (fun p => cleanHtml (str p.2.2))⟩
  ∧ mkTrueFalse (tfRecT q tfAs) =
      .ok ⟨⟨cleanHtml (str q), []⟩,
        (((tfAs.filter (fun p => p.2.1 = 100)).map
          (fun p => cleanHtml (str p.2.2))).getLast?).elim Option.none some⟩
  ∧ mkNumerical (numRecT q numAs) =
      .ok ⟨⟨cleanHtml (str q), []⟩,
        ((((numAs.filter (fun p => p.2.1 = 100)).map
          (fun p => (cleanHtml (str p.2.2.1), cleanHtml (str p.2.2.2)))).getLast?).elim
            (Option.none, Option.none) (fun pr => (some pr.1, some pr.2))).1,
        ((((numAs.filter (fun p => p.2.1 = 100)).map
          (fun p => (cleanHtml (str p.2.2.1), cleanHtml (str p.2.2.2)))).getLast?).elim
            (Option.none, Option.none) (fun pr => (some pr.1, some pr.2))).2⟩ :=
  ⟨mkMultiChoice_spec q mcAs hmc, mkShortAnswer_spec q saAs hsa,
    mkTrueFalse_spec q tfAs htf, mkNumerical_spec q numAs hnum⟩

/-- C3 witness: concrete fractions 50/0 for MultiChoice and 0/99/100 for the
exact-match types. -/
theorem C3_fraction_thresholds_witness :
    mkMultiChoice (mcRecT "Q" [("50", 50, "A"), ("0", 0, "B")]) =
      .ok ⟨⟨str "Q", []⟩, [(str "A", str "correct"), (str "B", str "incorrect")]⟩
  ∧ mkShortAnswer (saRecT "Q" [("0", 0, "no"), ("99", 99, "almost"), ("100", 100, "yes")]) =
      .ok ⟨⟨str "Q", []⟩, [str "yes"]⟩
  ∧ mkTrueFalse (tfRecT "Q" [("0", 0, "false"), ("100", 100, "true")]) =
      .ok ⟨⟨str "Q", []⟩, some (str "true")⟩
  ∧ mkNumerical (numRecT "Q" [("100", 100, "42", "1"), ("0", 0, "7", "2")]) =
      .ok ⟨⟨str "Q", []⟩, some (str "42"), some (str "1")⟩ := by
  have h := C3_fraction_thresholds "Q" [("50", 50, "A"), ("0", 0, "B")]
    [("0", 0, "no"), ("99", 99, "almost"), ("100", 100, "yes")]
    [("0", 0, "false"), ("100", 100, "true")]
    [("100", 100, "42", "1"), ("0", 0, "7", "2")]
    (by decide) (by decide) (by decide) (by decide)
  exact ⟨h.1, h.2.1, h.2.2.1, h.2.2.2⟩

/-- C1 counterexample: a truefalse record whose answer group has fractions 0
and 50 (no fraction-100 answer) does NOT fail construction — `mkTrueFalse`
succeeds with the `answer` attribute never set — and the error then surfaces
during serialization at the final flush, crashing the run with an
`AttributeError` instead of being caught and turned into a Malformed
record. -/
theorem C1_counterexample :
    (mkTrueFalse (tfRecOf "Q" [("0", "false"), ("50", "true")])).isOk = true
  ∧ mainRun [catRec "c", tfRecOf "Q" [("0", "false"), ("50", "true")]] =
      .error .attrError :=
  ⟨rfl, rfl⟩

/-- C1 amended: an exception raised inside a recognized type's construction
(e.g. a missing `questiontext` key) is caught by the orchestrator and the
record is bucketed as Malformed; but an expected 100%-fraction answer group
containing no fraction-100 answer (TrueFalse here) does not fail
construction — the question is built with its `answer` attribute unset and
the `AttributeError` surfaces only later, when the question is serialized
during a flush. -/
theorem C1_amended_construction_vs_flush (q : String)
    (as : List (String × Int × String))
    (hparse : ∀ p ∈ as, pyInt (str p.1) = .ok p.2.1)
    (h100 : ∀ p ∈ as, p.2.1 ≠ 100) :
    (mkTrueFalse (tfRecT q as) = .ok ⟨⟨cleanHtml (str q), []⟩, Option.none⟩
      ∧ TrueFalse.to_BBultra ⟨⟨cleanHtml (str q), []⟩, Option.none⟩ = .error .attrError)
  ∧ step initState (.vdict [(str "@type", vstr "truefalse")]) =
      ({ questions :=
          [(str "*malformed*", [.malformed (pyStr (.vdict [(str "@type", vstr "truefalse")]))])],
         category := Option.none }, []) := by
  refine ⟨⟨?_, rfl⟩, rfl⟩
  rw [mkTrueFalse_spec q as hparse]
  have hfil : as.filter (fun p => p.2.1 = 100) = [] := by
    rw [List.filter_eq_nil_iff]
    intro p hp
    simpa using h100 p hp
  rw [hfil]
  rfl

/-- C1 amended witness at fractions 0 and 50. -/
theorem C1_amended_construction_vs_flush_witness :
    mkTrueFalse (tfRecT "Q" [("0", 0, "false"), ("50", 50, "true")]) =
        .ok ⟨⟨str "Q", []⟩, Option.none⟩
  ∧ TrueFalse.to_BBultra ⟨⟨str "Q", []⟩, Option.none⟩ = .error .attrError := by
  have h := C1_amended_construction_vs_flush "Q" [("0", 0, "false"), ("50", 50, "true")]
    (by decide) (by decide)
  exact ⟨h.1.1, h.1.2⟩

/-- C2: the claim describes the intended single-blank `FIB` serialization,
but the code's `else` branch reads `answer[0][0]` where the local `answer`
was never assigned, so serializing a one-blank Cloze raises
`UnboundLocalError` instead of returning the `FIB` line; construction itself
succeeds, collecting the single blank `(a, 42)`. -/
theorem C2_cloze_single_blank_crash :
    (mkCloze (clozeRecOf "Compute \x7b1:SA:=42#wrong\x7d")).map
        (fun c => (c.question, c.answers)) =
      .ok (str "Compute [a]", [(str "a", str "42")])
  ∧ (do let c ← mkCloze (clozeRecOf "Compute \x7b1:SA:=42#wrong\x7d")
        c.to_BBultra) = .error .unboundLocal :=
  ⟨rfl, rfl⟩

/-- C6: a record whose construction fails does not abort the loop: with a
failing truefalse record (missing `questiontext`) and an unrecognized-type
record mixed among well-formed questions, processing continues, the failing
record lands under the `*malformed*` sentinel key, the unrecognized record
under the distinct `*unsupported*` sentinel key, and the surrounding
questions land in their own type bucket in order. -/
theorem C6_failure_isolation (q1 a1 q3 a3 : String) :
    runSteps [tfRecGood q1 a1,
              .vdict [(str "@type", vstr "truefalse")],
              tfRecGood q3 a3,
              .vdict [(str "@type", vstr "calculated"), qtEntry "Calc"]] =
      (⟨[(str "truefalse",
            [.truefalse ⟨⟨cleanHtml (str q1), []⟩, some (cleanHtml (str a1))⟩,
             .truefalse ⟨⟨cleanHtml (str q3), []⟩, some (cleanHtml (str a3))⟩]),
          (str "*malformed*",
            [.malformed (pyStr (.vdict [(str "@type", vstr "truefalse")]))]),
          (str "*unsupported*",
            [.malformed (pyStr (.vdict [(str "@type", vstr "calculated"),
              qtEntry "Calc"]))])],
        Option.none⟩, []) :=
  rfl

/-- C7: two category markers, each followed by one question, produce two
separate output files in order, each named after its own (sanitized,
top-stripped) category and containing exactly its own question's export
line; the first bucket is flushed and reset at the second marker and the
second at input exhaustion. -/
theorem C7_category_flush_ordering (c1 c2 q1 a1 q2 a2 : String) :
    mainRun [catRec c1, tfRecGood q1 a1, catRec c2, tfRecGood q2 a2] =
      .ok [⟨str "output/" ++ sanitizeCat (stripTop (str c1)) ++ '_' :: str "truefalse"
              ++ str ".txt",
            .text (str "TF\t" ++ cleanHtml (str q1) ++ '\t' :: cleanHtml (str a1)
              ++ ['\x0a'])⟩,
           ⟨str "output/" ++ sanitizeCat (stripTop (str c2)) ++ '_' :: str "truefalse"
              ++ str ".txt",
            .text (str "TF\t" ++ cleanHtml (str q2) ++ '\t' :: cleanHtml (str a2)
              ++ ['\x0a'])⟩] :=
  rfl

/-- C10: with at least one typed question and no category marker, the final
flush is reached with the category still `None`, so building the output file
name raises an uncaught `AttributeError` and the run crashes without writing
anything; and typed questions appearing before the first category marker are
not flushed or cleared by that marker — they are carried into the first
category's bucket and appear in its output file. -/
theorem C10_no_category_crash_and_carryover (q0 a0 q1 a1 c1 c2 : String) :
    mainRun [tfRecGood q0 a0] = .error .attrError
  ∧ mainRun [tfRecGood q0 a0, catRec c1, tfRecGood q1 a1, catRec c2] =
      .ok [⟨str "output/" ++ sanitizeCat (stripTop (str c1)) ++ '_' :: str "truefalse"
              ++ str ".txt",
            .text (str "TF\t" ++ cleanHtml (str q0) ++ '\t' :: cleanHtml (str a0)
              ++ ['\x0a']
              ++ (str "TF\t" ++ cleanHtml (str q1) ++ '\t' :: cleanHtml (str a1))
              ++ ['\x0a'])⟩] :=
  ⟨rfl, rfl⟩

theorem replaceListF_notMem_of_single {c : Char} {rep : Str} (hrep : c ∉ rep) :
    ∀ f : Nat, ∀ s : Str, s.length ≤ f → c ∉ replaceListF [c] rep f s := by
  intro f
  induction f with
  | zero =>
    intro s h
    have : s = [] := List.length_eq_zero.mp (Nat.le_zero.mp h)
    subst this
    simp [replaceListF]
  | succ n ih =>
    intro s h
    cases s with
    | nil => simp [replaceListF]
    | cons d rest =>
      simp only [List.length_cons] at h
      by_cases hd : d = c
      · subst hd
        have hpre : leadsWith [d] (d :: rest) = true := by simp [leadsWith]
        rw [show replaceListF [d] rep (n + 1) (d :: rest) =
            rep ++ replaceListF [d] rep n (List.drop 1 (d :: rest)) by
          simp [replaceListF, hpre]]
        exact notMem_append hrep (by simpa using ih rest (by omega))
      · rw [show replaceListF [c] rep (n + 1) (d :: rest) =
            d :: replaceListF [c] rep n rest by
          simp [replaceListF, leadsWith, Ne.symm hd]]
        exact notMem_cons (Ne.symm hd) (ih rest (by omega))

theorem replaceListF_notMem_preserve {c : Char} {pat rep : Str}
    (hrep : c ∉ rep) :
    ∀ f : Nat, ∀ s : Str, c ∉ s → c ∉ replaceListF pat rep f s := by
  intro f
  induction f with
  | zero => intro s h; simpa [replaceListF] using h
  | succ n ih =>
    intro s h
    cases s with
    | nil => simp [replaceListF]
    | cons d rest =>
      simp only [List.mem_cons, not_or] at h
      by_cases hpre : leadsWith pat (d :: rest) = true
      · rw [show replaceListF pat rep (n + 1) (d :: rest) =
            rep ++ replaceListF pat rep n (List.drop pat.length (d :: rest)) by
          simp [replaceListF, hpre]]
        refine notMem_append hrep (ih _ ?_)
        intro hc
        have := List.mem_of_mem_drop hc
        simp only [List.mem_cons] at this
        rcases this with h1 | h2
        · exact h.1 h1
        · exact h.2 h2
      · rw [show replaceListF pat rep (n + 1) (d :: rest) =
            d :: replaceListF pat rep n rest by
          simp [replaceListF, hpre]]
        exact notMem_cons h.1 (ih rest h.2)

theorem escBrackets_no_brackets (s : Str) :
    '[' ∉ escBrackets s ∧ ']' ∉ escBrackets s := by
  have h1 : '[' ∉ replaceList (str "[") (str "$$\\lbrack$$") s := by
    rw [replaceList, if_neg (by decide)]
    exact replaceListF_notMem_of_single (by decide) _ s (le_refl _)
  constructor
  · rw [escBrackets, replaceList, if_neg (by decide)]
    exact replaceListF_notMem_preserve (by decide) _ _ h1
  · rw [escBrackets, replaceList, if_neg (by decide)]
    exact replaceListF_notMem_of_single (by decide) _ _ (le_refl _)

theorem except_bind_ok {α β : Type} {e : Except Err α} {k : α → Except Err β} {b : β}
    (h : Except.bind e k = .ok b) : ∃ a, e = .ok a ∧ k a = .ok b := by
  cases e with
  | error er => exact absurd h (by simp [Except.bind])
  | ok a => exact ⟨a, rfl, h⟩

/-- C5 counterexample: the constructed text of a Question variant CAN
contain raw newlines and unescaped square brackets — a Description whose
text is in `moodle_auto_format` keeps both, because only the `html` branch
strips newlines and only Cloze/ShortAnswer escape brackets. -/
theorem C5_counterexample :
    mkDescription (descRecFmt "a\x0ab[c]" "moodle_auto_format") =
      .ok ⟨str "a\x0ab[c]", []⟩
  ∧ '\x0a' ∈ str "a\x0ab[c]" ∧ '[' ∈ str "a\x0ab[c]" :=
  ⟨rfl, by decide, by decide⟩

/-- C5 amended: only Cloze and ShortAnswer escape square brackets; for every
successfully constructed ShortAnswer the question text is free of raw `[`
and `]` (each pre-existing bracket having been replaced by a LaTeX escape),
while other variants and non-html formats may retain brackets and
newlines. -/
theorem C5_amended_bracket_escape (rec : Val) (q : ShortAnswer)
    (h : mkShortAnswer rec = .ok q) :
    '[' ∉ q.question ∧ ']' ∉ q.question := by
  replace h : Except.bind (mkQuestionBase rec) (fun base =>
      Except.bind (rec.get (str "answer")) (fun av =>
        Except.bind (saLoop (listify av)) (fun ans =>
          Except.ok ⟨⟨escBrackets base.question, base.files⟩, ans⟩))) = .ok q := h
  obtain ⟨base, hbase, h2⟩ := except_bind_ok h
  obtain ⟨av, hav, h3⟩ := except_bind_ok h2
  obtain ⟨ans, hans, h4⟩ := except_bind_ok h3
  simp only [Except.ok.injEq] at h4
  subst h4
  exact escBrackets_no_brackets base.question

/-- C5 amended witness: a ShortAnswer whose raw text contains brackets. -/
theorem C5_amended_bracket_escape_witness :
    '[' ∉ (ShortAnswer.mk ⟨str "Name $$\\lbrack$$it$$\\rbrack$$", []⟩
      [str "yes"]).question
  ∧ ']' ∉ (ShortAnswer.mk ⟨str "Name $$\\lbrack$$it$$\\rbrack$$", []⟩
      [str "yes"]).question :=
  C5_amended_bracket_escape (saRecOf "Name [it]" [("100", "yes")])
    (ShortAnswer.mk ⟨str "Name $$\\lbrack$$it$$\\rbrack$$", []⟩ [str "yes"]) rfl

theorem b64val_b64char : ∀ v : Nat, v < 64 → b64val (b64char v) = some v := by
  decide

theorem b64char_ne_pad : ∀ v : Nat, v < 64 → b64char v ≠ '=' := by
  decide

theorem emap_ok {α β : Type} (f : α → β) (a : α) :
    Except.map f (Except.ok a : Except Err α) = .ok (f a) := rfl

theorem b64_roundtrip : ∀ bs : List Nat, (∀ b ∈ bs, b < 256) →
    b64decode (b64encode bs) = .ok bs := by
  intro bs
  induction bs using b64encode.induct with
  | case1 => intro _; rfl
  | case2 x =>
    intro h
    have hx : x < 256 := h x (by simp)
    have h1 : b64val (b64char (x / 4)) = some (x / 4) := b64val_b64char _ (by omega)
    have h2 : b64val (b64char (x % 4 * 16)) = some (x % 4 * 16) :=
      b64val_b64char _ (by omega)
    rw [b64encode, b64decode, h1, h2]
    simp only [Option.elim_some]
    rw [if_pos (by simp)]
    have ex : x / 4 * 4 + x % 4 * 16 / 16 = x := by omega
    rw [ex]
  | case3 x y =>
    intro h
    have hx : x < 256 := h x (by simp)
    have hy : y < 256 := h y (by simp)
    have h1 : b64val (b64char (x / 4)) = some (x / 4) := b64val_b64char _ (by omega)
    have h2 : b64val (b64char (x % 4 * 16 + y / 16)) = some (x % 4 * 16 + y / 16) :=
      b64val_b64char _ (by omega)
    have h3 : b64val (b64char (y % 16 * 4)) = some (y % 16 * 4) :=
      b64val_b64char _ (by omega)
    have hne : b64char (y % 16 * 4) ≠ '=' := b64char_ne_pad _ (by omega)
    rw [b64encode, b64decode, h1, h2]
    simp only [Option.elim_some]
    rw [if_neg (by simp [hne]), h3]
    simp only [Option.elim_some]
    rw [if_pos (by simp)]
    have ex : x / 4 * 4 + (x % 4 * 16 + y / 16) / 16 = x := by omega
    have ey : (x % 4 * 16 + y / 16) % 16 * 16 + y % 16 * 4 / 4 = y := by omega
    rw [ex, ey]
  | case4 x y z rest ih =>
    intro h
    have hx : x < 256 := h x (by simp)
    have hy : y < 256 := h y (by simp)
    have hz : z < 256 := h z (by simp)
    have h1 : b64val (b64char (x / 4)) = some (x / 4) := b64val_b64char _ (by omega)
    have h2 : b64val (b64char (x % 4 * 16 + y / 16)) = some (x % 4 * 16 + y / 16) :=
      b64val_b64char _ (by omega)
    have h3 : b64val (b64char (y % 16 * 4 + z / 64)) = some (y % 16 * 4 + z / 64) :=
      b64val_b64char _ (by omega)
    have h4 : b64val (b64char (z % 64)) = some (z % 64) := b64val_b64char _ (by omega)
    have hne3 : b64char (y % 16 * 4 + z / 64) ≠ '=' := b64char_ne_pad _ (by omega)
    have hne4 : b64char (z % 64) ≠ '=' := b64char_ne_pad _ (by omega)
    rw [show b64encode (x :: y :: z :: rest) =
      b64char (x / 4) :: b64char (x % 4 * 16 + y / 16) ::
        b64char (y % 16 * 4 + z / 64) :: b64char (z % 64) :: b64encode rest from rfl]
    rw [b64decode, h1, h2]
    simp only [Option.elim_some]
    rw [if_neg (by simp [hne3]), h3]
    simp only [Option.elim_some]
    rw [if_neg (by simp [hne4]), h4]
    simp only [Option.elim_some]
    rw [ih (fun b hb => h b (by simp [hb])), emap_ok]
    have ex : x / 4 * 4 + (x % 4 * 16 + y / 16) / 16 = x := by omega
    have ey : (x % 4 * 16 + y / 16) % 16 * 16 + (y % 16 * 4 + z / 64) / 4 = y := by omega
    have ez : (y % 16 * 4 + z / 64) % 4 * 64 + z % 64 = z := by omega
    rw [ex, ey, ez]

theorem str_inj {a b : String} : str a = str b ↔ a = b := by
  constructor
  · intro h
    cases a
    cases b
    simp only [str] at h
    rw [h]
  · intro h
    rw [h]

theorem processFiles_markers : ∀ (fs : List (String × String × Str)) (q : Str)
    (acc : List (Str × List Nat)),
    (∀ f ∈ fs, f.2.1 ≠ "base64") →
    processFiles (fs.map (fun f => fileDesc f.1 f.2.1 f.2.2)) q acc =
      .ok (q ++ (fs.map
        (fun f => str " [[ linked file " ++ str f.1 ++ str " ]]")).flatten, acc) := by
  intro fs
  induction fs with
  | nil =>
    intro q acc _
    show Except.ok (q, acc) = _
    simp
  | cons f rest ih =>
    intro q acc h
    obtain ⟨nm, enc, pl⟩ := f
    have henc : enc ≠ "base64" := h ⟨nm, enc, pl⟩ (by simp)
    have hstep : processFiles (fileDesc nm enc pl ::
          rest.map (fun f => fileDesc f.1 f.2.1 f.2.2)) q acc =
        (if (Val.isStrEq (vstr enc) "base64") = true then
          (b64decode pl >>= fun bytes =>
            processFiles (rest.map (fun f => fileDesc f.1 f.2.1 f.2.2))
              (q ++ str " [[ linked file " ++ str nm ++ str " ]]")
              (acc ++ [(str nm, bytes)]))
        else
          processFiles (rest.map (fun f => fileDesc f.1 f.2.1 f.2.2))
            (q ++ str " [[ linked file " ++ str nm ++ str " ]]") acc) := rfl
    simp only [List.map_cons]
    rw [hstep, if_neg (by simp [Val.isStrEq, vstr, str_inj, henc]),
      ih _ _ (fun r hr => h r (by simp [hr]))]
    simp [List.append_assoc]

/-- C8: construction appends the inline `[[ linked file <name> ]]` marker to
the question text once per descriptor in order (also for non-base64
encodings, which contribute no attachment); a single descriptor is treated
as the one-element sequence; a base64 descriptor's payload is decoded into
the ordered (name, bytes) attachment list; and an invalid base64 payload
fails the whole construction, which the orchestrator then buckets as
Malformed. -/
theorem C8_attachment_extraction :
    (∀ (q : String) (fs : List (String × String × Str)),
      (∀ f ∈ fs, f.2.1 ≠ "base64") →
      mkQuestionBase (.vdict [qtFilesEntry q
          (.vlist (fs.map (fun f => fileDesc f.1 f.2.1 f.2.2)))]) =
        .ok ⟨cleanHtml (str q) ++ (fs.map
          (fun f => str " [[ linked file " ++ str f.1 ++ str " ]]")).flatten, []⟩)
  ∧ (∀ (q nm enc : String) (pl : Str),
      mkQuestionBase (.vdict [qtFilesEntry q (fileDesc nm enc pl)]) =
        mkQuestionBase (.vdict [qtFilesEntry q (.vlist [fileDesc nm enc pl])]))
  ∧ (∀ (q nm : String) (bs : List Nat), (∀ b ∈ bs, b < 256) →
      mkQuestionBase (.vdict [qtFilesEntry q
          (.vlist [fileDesc nm "base64" (b64encode bs)])]) =
        .ok ⟨cleanHtml (str q) ++ str " [[ linked file " ++ str nm ++ str " ]]",
          [(str nm, bs)]⟩)
  ∧ mkQuestionBase (.vdict [qtFilesEntry "q" (fileDesc "f" "base64" (str "!!!!"))]) =
      .error .decodeError
  ∧ step initState (descRecFiles "q" (fileDesc "f" "base64" (str "!!!!"))) =
      ({ questions := [(str "*malformed*",
          [.malformed (pyStr (descRecFiles "q" (fileDesc "f" "base64" (str "!!!!"))))])],
         category := Option.none }, []) := by
  refine ⟨?markers, fun q nm enc pl => rfl, ?decode, rfl, rfl⟩
  case markers =>
    intro q fs h
    have hstep : mkQuestionBase (.vdict [qtFilesEntry q
          (.vlist (fs.map (fun f => fileDesc f.1 f.2.1 f.2.2)))]) =
        Except.bind (processFiles (fs.map (fun f => fileDesc f.1 f.2.1 f.2.2))
            (cleanHtml (str q)) [])
          (fun r => Except.ok ⟨r.1, r.2⟩) := rfl
    rw [hstep, processFiles_markers fs _ _ h]
    rfl
  case decode =>
    intro q nm bs h
    have hstep : mkQuestionBase (.vdict [qtFilesEntry q
          (.vlist [fileDesc nm "base64" (b64encode bs)])]) =
        Except.bind (processFiles [fileDesc nm "base64" (b64encode bs)]
            (cleanHtml (str q)) [])
          (fun r => Except.ok (⟨r.1, r.2⟩ : QBase)) := rfl
    have hpf : processFiles [fileDesc nm "base64" (b64encode bs)]
          (cleanHtml (str q)) [] =
        (b64decode (b64encode bs) >>= fun bytes =>
          pure (cleanHtml (str q) ++ str " [[ linked file " ++ str nm ++ str " ]]",
            ([] : List (Str × List Nat)) ++ [(str nm, bytes)])) := rfl
    rw [hstep, hpf, b64_roundtrip bs h]
    rfl

/-- C8 witness: one base64 attachment named diagram.png with bytes 1,2,3
(payload "AQID"). -/
theorem C8_attachment_extraction_witness :
    (mkQuestionBase (.vdict [qtFilesEntry "See"
        (.vlist [fileDesc "notes.txt" "binary" (str "zz"),
                 fileDesc "b.txt" "7bit" (str "y")])]) =
      .ok ⟨str "See [[ linked file notes.txt ]] [[ linked file b.txt ]]", []⟩) ∧
    (mkQuestionBase (.vdict [qtFilesEntry "See"
        (.vlist [fileDesc "diagram.png" "base64" (str "AQID")])]) =
      .ok ⟨str "See [[ linked file diagram.png ]]", [(str "diagram.png", [1, 2, 3])]⟩) :=
  ⟨C8_attachment_extraction.1 "See"
      [("notes.txt", "binary", str "zz"), ("b.txt", "7bit", str "y")] (by decide),
   C8_attachment_extraction.2.2.1 "See" "diagram.png" [1, 2, 3] (by decide)⟩
